import Mathlib

/-!
Verification of the Haddock associative selection engine
(RelationshipDetector, QueryBuilder, StateCalculator, AssociativeEngine)
against its natural-language specification.

The TypeScript sources are shallowly embedded: scalar database values are an
inductive type, JS `Map`/`Set` containers are insertion-ordered association
lists with update-or-append semantics, the asynchronous query-execution
capability is a function into `Except` (a rejected promise is `.error`), and
the two breadth-first-search `while` loops are fuel-based recursions with a
fuel that is proved sufficient.
-/

set_option maxHeartbeats 1000000

/-- Scalar database value (`DuckDBValue` in the source: `string | number |
boolean | Date | null`, plus the JS `undefined` produced by reading a missing
row field). Dates carry their ISO-8601 rendering. -/
inductive DuckDBValue where
  | null
  | undef
  | str (s : String)
  | int (n : Int)
  | bool (b : Bool)
  | date (iso : String)
deriving DecidableEq, Repr

/-- `ColumnInfo` from `types/schema.ts`. -/
structure ColumnInfo where
  name : String
  type : String
  nullable : Bool
deriving DecidableEq, Repr

/-- `TableSchema` from `types/schema.ts`. -/
structure TableSchema where
  name : String
  columns : List ColumnInfo
  rowCount : Nat
deriving DecidableEq, Repr

/-- Relationship confidence level. -/
inductive Confidence where
  | high
  | medium
  | low
deriving DecidableEq, Repr

/-- `Relationship` from `types/schema.ts`: an inferred foreign-key-like edge. -/
structure Relationship where
  id : String
  fromTable : String
  fromColumn : String
  toTable : String
  toColumn : String
  confidence : Confidence
deriving DecidableEq, Repr

/-- `FieldSelection` from `types/selection.ts`; `values` is a JS `Set`,
modelled as its insertion-ordered element list. -/
structure FieldSelection where
  table : String
  column : String
  values : List DuckDBValue
deriving DecidableEq, Repr

/-- `ColumnSelection` from `types/canvas.ts`. -/
structure ColumnSelection where
  table : String
  column : String
deriving DecidableEq, Repr

/-- One row returned by the query-execution capability: a mapping from column
name to scalar value, modelled as an association list. -/
abbrev Row := List (String × DuckDBValue)

/-- Reading `row[column]` in JS: the stored value, or `undefined` when the
column is absent. -/
def rowGet (row : Row) (column : String) : DuckDBValue :=
  match row.find? (fun p => decide (p.1 = column)) with
  | some p => p.2
  | none => DuckDBValue.undef

/-- The query-execution capability `execute(sql) → Promise<{rows}>`: `.error`
models a rejected promise. -/
abbrev QueryExecutor := String → Except String (List Row)

/-! ## QueryBuilder: table references and value formatting -/

/-- Splitting a character list on `'.'` (the full split; JS
`split('.', 2)` keeps the first two pieces of this). -/
def splitOnDot : List Char → List Char → List (List Char)
  | [], acc => [acc.reverse]
  | c :: rest, acc =>
      if c = '.' then acc.reverse :: splitOnDot rest []
      else splitOnDot rest (c :: acc)

/-- `toSqlTableRef` from `QueryBuilder.ts`: render a possibly
schema-qualified table name as a quoted SQL reference under the `loaded_db`
catalog. `"customers"` becomes `loaded_db."customers"`;
`"staging.customers"` becomes `loaded_db."staging"."customers"`. -/
def toSqlTableRef (tableName : String) : String :=
  if '.' ∈ tableName.data then
    let parts := splitOnDot tableName.data []
    let schema := String.mk (parts.headD [])
    let table := String.mk ((parts.drop 1).headD [])
    "loaded_db.\"" ++ schema ++ "\".\"" ++ table ++ "\""
  else
    "loaded_db.\"" ++ tableName ++ "\""

/-- Doubling of single quotes inside SQL string literals
(`value.replace(/'/g, "''")`). -/
def escapeQuotes (s : String) : String :=
  String.mk (s.data.flatMap (fun c => if c = '\'' then ['\'', '\''] else [c]))

/-- `formatValue` from `QueryBuilder.ts`. -/
def formatValue : DuckDBValue → String
  | DuckDBValue.null => "NULL"
  | DuckDBValue.str s => "'" ++ escapeQuotes s ++ "'"
  | DuckDBValue.bool b => if b then "TRUE" else "FALSE"
  | DuckDBValue.date iso => "'" ++ iso ++ "'"
  | DuckDBValue.int n => toString n
  | DuckDBValue.undef => "undefined"

/-- `buildWhereClause` from `QueryBuilder.ts` (full table-reference form). -/
def buildWhereClause (selections : List FieldSelection) (tableName : String) : String :=
  String.intercalate " AND "
    (selections.map (fun sel =>
      toSqlTableRef tableName ++ ".\"" ++ sel.column ++ "\" IN (" ++
        String.intercalate ", " (sel.values.map formatValue) ++ ")"))

/-- `buildWhereClauseWithAlias` from `QueryBuilder.ts`. -/
def buildWhereClauseWithAlias (selections : List FieldSelection) (tblAlias : String) : String :=
  String.intercalate " AND "
    (selections.map (fun sel =>
      tblAlias ++ ".\"" ++ sel.column ++ "\" IN (" ++
        String.intercalate ", " (sel.values.map formatValue) ++ ")"))

/-! ## JS Map primitives

JS `Map` objects keep insertion order; `set` updates an existing key in
place or appends, `get`/`has` look keys up. All keyed maps in the engine are
embedded through these three operations. -/

/-- JS `Map.set`. -/
def jsMapSet {κ ν : Type} [DecidableEq κ] (m : List (κ × ν)) (k : κ) (v : ν) :
    List (κ × ν) :=
  if m.any (fun p => decide (p.1 = k)) then
    m.map (fun p => if p.1 = k then (k, v) else p)
  else m ++ [(k, v)]

/-- JS `Map.get`. -/
def jsMapGet {κ ν : Type} [DecidableEq κ] (m : List (κ × ν)) (k : κ) : Option ν :=
  (m.find? (fun p => decide (p.1 = k))).map (fun p => p.2)

/-- JS `Map.has`. -/
def jsMapHas {κ ν : Type} [DecidableEq κ] (m : List (κ × ν)) (k : κ) : Bool :=
  m.any (fun p => decide (p.1 = k))

/-! ## RelationshipDetector: pattern detection -/

/-- Lowercase a name (JS `toLowerCase`, per-character). -/
def jsToLower (s : String) : String :=
  String.mk (s.data.map Char.toLower)

/-- Remove every underscore (JS `replace(/_/g, '')`). -/
def removeUnderscores (s : String) : String :=
  String.mk (s.data.filter (fun c => ¬ c = '_'))

/-- Character-list prefix test, used to decide substring containment. -/
def charsPrefix : List Char → List Char → Bool
  | [], _ => true
  | _ :: _, [] => false
  | a :: as, b :: bs => decide (a = b) && charsPrefix as bs

/-- JS `String.prototype.endsWith`. -/
def strEndsWith (s suffix : String) : Bool :=
  charsPrefix suffix.data.reverse s.data.reverse

/-- Strip a trailing `_id` or `id` (JS `replace(/_?id$/i, '')` applied to an
already lowercased name). -/
def stripIdSuffix (s : String) : String :=
  if strEndsWith s "_id" then String.mk (s.data.take (s.data.length - 3))
  else if strEndsWith s "id" then String.mk (s.data.take (s.data.length - 2))
  else s

/-- Substring containment on character lists (haystack, then needle). -/
def charsContains : List Char → List Char → Bool
  | [], needle => needle.isEmpty
  | c :: rest, needle => charsPrefix needle (c :: rest) || charsContains rest needle

/-- JS `String.prototype.includes`. -/
def strIncludes (hay needle : String) : Bool :=
  charsContains hay.data needle.data

/-- `areTypesCompatible` from `RelationshipDetector.ts`: family-based type
compatibility (integer-like and string-like name fragments). -/
def areTypesCompatible (type1 type2 : String) : Bool :=
  let numericTypes := ["integer", "bigint", "smallint", "int", "int4", "int8"]
  let stringTypes := ["varchar", "text", "char", "string"]
  let t1 := jsToLower type1
  let t2 := jsToLower type2
  if t1 = t2 then true
  else if numericTypes.any (fun t => strIncludes t1 t) &&
          numericTypes.any (fun t => strIncludes t2 t) then true
  else if stringTypes.any (fun t => strIncludes t1 t) &&
          stringTypes.any (fun t => strIncludes t2 t) then true
  else false

/-- `calculateConfidence` from `RelationshipDetector.ts`. -/
def calculateConfidence (fromCol toCol : ColumnInfo) : Confidence :=
  let typesMatch := areTypesCompatible fromCol.type toCol.type
  let toColIsId := decide (jsToLower toCol.name = "id")
  if typesMatch && toColIsId then Confidence.high
  else if typesMatch then Confidence.medium
  else Confidence.low

/-- The referenced table must expose a column literally named `id` or
`<table>id` (the `find` inside pattern 1). -/
def findIdColumn (tbl : TableSchema) : Option ColumnInfo :=
  tbl.columns.find? (fun c =>
    decide (jsToLower c.name = "id") || decide (jsToLower c.name = jsToLower tbl.name ++ "id"))

/-- The detector table map `new Map(tables.map(t => [t.name.toLowerCase(), t]))`:
JS `Map.set` updates in place or appends. -/
def tableMapSet (m : List (String × TableSchema)) (k : String) (v : TableSchema) :
    List (String × TableSchema) :=
  if m.any (fun p => decide (p.1 = k)) then
    m.map (fun p => if p.1 = k then (k, v) else p)
  else m ++ [(k, v)]

def buildTableMap (tables : List TableSchema) : List (String × TableSchema) :=
  tables.foldl (fun m t => tableMapSet m (jsToLower t.name) t) []

/-- Pattern 1 of `detectColumnRelationship`: scan the table map for a table
whose normalized name matches the FK column stem; on a name match the table
must have an id column and differ from the owning table, else scanning
continues. -/
def pattern1Search (tableName : String) (column : ColumnInfo) (potentialTableName : String) :
    List (String × TableSchema) → Option Relationship
  | [] => none
  | (tblNameLower, tbl) :: rest =>
      let normalizedTblName := removeUnderscores tblNameLower
      if normalizedTblName = potentialTableName ∨
         normalizedTblName = potentialTableName ++ "s" ∨
         normalizedTblName ++ "s" = potentialTableName then
        match findIdColumn tbl with
        | some idColumn =>
            if ¬ tbl.name = tableName then
              some { id := tableName ++ "." ++ column.name ++ "->" ++ tbl.name ++ "." ++ idColumn.name,
                     fromTable := tableName,
                     fromColumn := column.name,
                     toTable := tbl.name,
                     toColumn := idColumn.name,
                     confidence := calculateConfidence column idColumn }
            else pattern1Search tableName column potentialTableName rest
        | none => pattern1Search tableName column potentialTableName rest
      else pattern1Search tableName column potentialTableName rest

/-- Inner column scan of pattern 2 of `detectColumnRelationship`. -/
def pattern2SearchCols (tableName : String) (column : ColumnInfo) (otherTable : TableSchema) :
    List ColumnInfo → Option Relationship
  | [] => none
  | otherCol :: rest =>
      let otherColLower := jsToLower otherCol.name
      let expectedFkName := jsToLower tableName ++ "id"
      let expectedFkNameUnderscore := jsToLower tableName ++ "_id"
      if otherColLower = expectedFkName ∨
         otherColLower = expectedFkNameUnderscore ∨
         removeUnderscores otherColLower = expectedFkName then
        some { id := otherTable.name ++ "." ++ otherCol.name ++ "->" ++ tableName ++ "." ++ column.name,
               fromTable := otherTable.name,
               fromColumn := otherCol.name,
               toTable := tableName,
               toColumn := column.name,
               confidence := calculateConfidence otherCol column }
      else pattern2SearchCols tableName column otherTable rest

/-- Outer table scan of pattern 2 of `detectColumnRelationship` (tables other
than the id column's own table). -/
def pattern2Search (tableName : String) (column : ColumnInfo) :
    List TableSchema → Option Relationship
  | [] => none
  | otherTable :: rest =>
      if otherTable.name = tableName then pattern2Search tableName column rest
      else
        match pattern2SearchCols tableName column otherTable otherTable.columns with
        | some r => some r
        | none => pattern2Search tableName column rest

/-- `detectColumnRelationship` from `RelationshipDetector.ts`. -/
def detectColumnRelationship (tableName : String) (column : ColumnInfo)
    (tables : List TableSchema) (tableMap : List (String × TableSchema)) :
    Option Relationship :=
  let colNameLower := jsToLower column.name
  let p1 :=
    if strEndsWith colNameLower "id" = true ∧ ¬ colNameLower = "id" then
      pattern1Search tableName column
        (removeUnderscores (stripIdSuffix colNameLower)) tableMap
    else none
  match p1 with
  | some r => some r
  | none =>
      if colNameLower = "id" then pattern2Search tableName column tables
      else none

/-- The duplicate scan in `detectRelationships`: a candidate matches an
existing relationship when its four endpoints agree directly or swapped. -/
def sameEndpoints (r detected : Relationship) : Bool :=
  (decide (r.fromTable = detected.fromTable) && decide (r.fromColumn = detected.fromColumn) &&
   decide (r.toTable = detected.toTable) && decide (r.toColumn = detected.toColumn)) ||
  (decide (r.fromTable = detected.toTable) && decide (r.fromColumn = detected.toColumn) &&
   decide (r.toTable = detected.fromTable) && decide (r.toColumn = detected.fromColumn))

/-- Append a detected relationship unless an equivalent one already exists. -/
def addIfNew (relationships : List Relationship) (detected : Relationship) :
    List Relationship :=
  if relationships.any (fun r => sameEndpoints r detected) then relationships
  else relationships ++ [detected]

/-- `detectRelationships` from `RelationshipDetector.ts`. -/
def detectRelationships (tables : List TableSchema) : List Relationship :=
  let tableMap := buildTableMap tables
  tables.foldl (fun relationships table =>
    table.columns.foldl (fun relationships column =>
      match detectColumnRelationship table.name column tables tableMap with
      | some detected => addIfNew relationships detected
      | none => relationships) relationships) []

/-! ## RelationshipDetector: graph queries

`findConnectedTables` and `findPath` are `while` loops over a queue and a
visited set. Each loop iteration pops one queue entry, and a popped entry is
expanded (pushing neighbours) only the first time its table is seen, so the
iteration count is bounded by the initial queue length plus (number of table
names occurring in the input) times (pushes per expansion). The loops are
embedded as fuel recursion with exactly that bound as fuel; the correctness
proofs establish that this fuel never runs out. -/

/-- Every table name that can ever enter a search queue started at `start`. -/
def allTables (relationships : List Relationship) (start : String) : List String :=
  start :: relationships.flatMap (fun rel => [rel.fromTable, rel.toTable])

/-- The `for (const rel of relationships)` loop inside one
`findConnectedTables` iteration: push the far endpoint of every incident
relationship that leads to a not-yet-visited table. -/
def expandConnected (visited : List String) (current : String) :
    List Relationship → List String → List String
  | [], queue => queue
  | rel :: rest, queue =>
      let q1 := if rel.fromTable = current ∧ rel.toTable ∉ visited then queue ++ [rel.toTable]
        else queue
      let q2 := if rel.toTable = current ∧ rel.fromTable ∉ visited then q1 ++ [rel.fromTable]
        else q1
      expandConnected visited current rest q2

/-- The `while` loop of `findConnectedTables`. -/
def bfsConnected (relationships : List Relationship) :
    Nat → List String → List String → List String
  | 0, visited, _ => visited
  | _ + 1, visited, [] => visited
  | fuel + 1, visited, current :: queue =>
      if current ∈ visited then bfsConnected relationships fuel visited queue
      else
        let visited1 := visited ++ [current]
        bfsConnected relationships fuel visited1
          (expandConnected visited1 current relationships queue)

/-- Fuel sufficient for `bfsConnected` (proved adequate below): one iteration
for the initial queue entry plus, for every table name that can appear, one
pop plus at most `2 * |relationships|` pushes. -/
def connectedFuel (relationships : List Relationship) (start : String) : Nat :=
  1 + (allTables relationships start).length * (2 * relationships.length + 1)

/-- `findConnectedTables` from `RelationshipDetector.ts`: all tables reachable
from `startTable` over the undirected view of the relationship list. -/
def findConnectedTables (startTable : String) (relationships : List Relationship) :
    List String :=
  bfsConnected relationships (connectedFuel relationships startTable) [] [startTable]

/-- One relationship step of the `for` loop inside `findPath`: the candidate
next table, when the relationship is incident to `table` and leads somewhere
unvisited (the two branches of the `if`/`else if`). -/
def pathNextTable (visited : List String) (table : String) (rel : Relationship) :
    Option String :=
  if rel.fromTable = table ∧ rel.toTable ∉ visited then some rel.toTable
  else if rel.toTable = table ∧ rel.fromTable ∉ visited then some rel.fromTable
  else none

/-- The `for rel of relationships` loop inside one `findPath` iteration:
either returns the completed path early (`.error`, modelling the `return`)
or the extended queue (`.ok`). -/
def expandPath (toTable table : String) (visited : List String)
    (path : List Relationship) :
    List Relationship → List (String × List Relationship) →
    Except (List Relationship) (List (String × List Relationship))
  | [], queue => Except.ok queue
  | rel :: rest, queue =>
      match pathNextTable visited table rel with
      | none => expandPath toTable table visited path rest queue
      | some nextTable =>
          let newPath := path ++ [rel]
          if nextTable = toTable then Except.error newPath
          else expandPath toTable table visited path rest (queue ++ [(nextTable, newPath)])

/-- The `while` loop of `findPath`. -/
def bfsPath (relationships : List Relationship) (toTable : String) :
    Nat → List String → List (String × List Relationship) →
    Option (List Relationship)
  | 0, _, _ => none
  | _ + 1, _, [] => none
  | fuel + 1, visited, (table, path) :: queue =>
      if table ∈ visited then bfsPath relationships toTable fuel visited queue
      else
        let visited1 := visited ++ [table]
        match expandPath toTable table visited1 path relationships queue with
        | Except.error found => some found
        | Except.ok queue1 => bfsPath relationships toTable fuel visited1 queue1

/-- Fuel sufficient for `bfsPath` (each expansion pushes at most one entry per
relationship). -/
def pathFuel (relationships : List Relationship) (start : String) : Nat :=
  1 + (allTables relationships start).length * (relationships.length + 1)

/-- `findPath` from `RelationshipDetector.ts`: breadth-first shortest path,
`some []` when the endpoints coincide, `none` when unreachable. -/
def findPath (fromTable toTable : String) (relationships : List Relationship) :
    Option (List Relationship) :=
  if fromTable = toTable then some []
  else
    bfsPath relationships toTable (pathFuel relationships fromTable) []
      [(fromTable, [])]

/-! ## QueryBuilder: join-path synthesis and the three query builders -/

/-- `getRelationshipPriority` from `QueryBuilder.ts`. -/
def getRelationshipPriority (relationship : Relationship) (preferredTables : List String) : Nat :=
  let s1 := if relationship.fromTable ∈ preferredTables then 2 else 0
  let s2 := if relationship.toTable ∈ preferredTables then s1 + 2 else s1
  let s3 := if ¬ strIncludes relationship.fromTable "." = true then s2 + 1 else s2
  let s4 := if ¬ strIncludes relationship.toTable "." = true then s3 + 1 else s3
  let s5 := if ¬ strIncludes relationship.fromTable "_" = true then s4 + 1 else s4
  if ¬ strIncludes relationship.toTable "_" = true then s5 + 1 else s5

/-- Stable insertion into a list already sorted by `le` (`le a b` means `a`
may precede `b`). -/
def insertByPriority (le : Relationship → Relationship → Bool) (x : Relationship) :
    List Relationship → List Relationship
  | [] => [x]
  | y :: ys => if le x y then x :: y :: ys else y :: insertByPriority le x ys

/-- Stable sort (JS `Array.prototype.sort` is stable; for the consistent
score-difference comparator used here any stable sort yields the same list). -/
def stableSortRels (le : Relationship → Relationship → Bool) :
    List Relationship → List Relationship
  | [] => []
  | x :: xs => insertByPriority le x (stableSortRels le xs)

/-- `findPreferredPath` from `QueryBuilder.ts`: sort relationships by
descending priority (stable on ties), then run `findPath`. -/
def findPreferredPath (fromTable toTable : String) (relationships : List Relationship)
    (preferredTables : List String) : Option (List Relationship) :=
  let prioritizedRelationships := stableSortRels
    (fun a b => decide (getRelationshipPriority b preferredTables ≤
                        getRelationshipPriority a preferredTables))
    relationships
  findPath fromTable toTable prioritizedRelationships

/-- Update-or-append on a string-keyed association list (JS `Map.set`). -/
def mapSetStr (m : List (String × String)) (k v : String) : List (String × String) :=
  if m.any (fun p => decide (p.1 = k)) then
    m.map (fun p => if p.1 = k then (k, v) else p)
  else m ++ [(k, v)]

/-- JS `Map.get` on a string-keyed association list. -/
def aliasLookup (m : List (String × String)) (k : String) : Option String :=
  (m.find? (fun p => decide (p.1 = k))).map (fun p => p.2)

/-- Mutable state of the query builders' join-synthesis loops. -/
structure JoinState where
  tableAliases : List (String × String)
  aliasCounter : Nat
  joins : List String
  whereConditions : List String
  joinedTables : List String
deriving Repr

/-- One `for (const rel of path)` iteration shared by the three builders:
walk one relationship edge, emitting a join for a not-yet-joined table. -/
def walkPathStep (joinKw : String) (acc : JoinState × String) (rel : Relationship) :
    JoinState × String :=
  let st := acc.1
  let currentTable := acc.2
  let nextTable := if rel.fromTable = currentTable then rel.toTable else rel.fromTable
  if nextTable ∈ st.joinedTables then (st, nextTable)
  else
    let nextAlias := "t" ++ toString st.aliasCounter
    let tableAliases1 := mapSetStr st.tableAliases nextTable nextAlias
    let currentAlias := (aliasLookup tableAliases1 currentTable).getD "undefined"
    let joinCol := if rel.fromTable = currentTable then rel.fromColumn else rel.toColumn
    let targetCol := if rel.fromTable = currentTable then rel.toColumn else rel.fromColumn
    let join := joinKw ++ " " ++ toSqlTableRef nextTable ++ " " ++ nextAlias ++ " ON " ++
      currentAlias ++ ".\"" ++ joinCol ++ "\" = " ++ nextAlias ++ ".\"" ++ targetCol ++ "\""
    ({ tableAliases := tableAliases1,
       aliasCounter := st.aliasCounter + 1,
       joins := st.joins ++ [join],
       whereConditions := st.whereConditions,
       joinedTables := st.joinedTables ++ [nextTable] }, nextTable)

/-- Grouping selections by owning table (JS `Map<string, FieldSelection[]>`
built by get-or-default, push, set). -/
def groupSelectionsByTable (selections : List FieldSelection) :
    List (String × List FieldSelection) :=
  selections.foldl (fun m sel =>
    if m.any (fun p => decide (p.1 = sel.table)) then
      m.map (fun p => if p.1 = sel.table then (p.1, p.2 ++ [sel]) else p)
    else m ++ [(sel.table, [sel])]) []

/-- One `for (const [sourceTable, tableSelections] of selectionsByTable)`
iteration of `buildTableQuery`/`buildPossibleValuesQuery`: filter directly on
the target table, or join a path towards the selection's table (skipping the
selection when no path exists). -/
def addSelectionGroup (targetTable : String) (relationships : List Relationship)
    (st : JoinState) (group : String × List FieldSelection) : JoinState :=
  let sourceTable := group.1
  let tableSelections := group.2
  if sourceTable = targetTable then
    { st with whereConditions :=
        st.whereConditions ++ [buildWhereClauseWithAlias tableSelections "t"] }
  else
    match findPreferredPath targetTable sourceTable relationships st.joinedTables with
    | none => st
    | some path =>
        if path.isEmpty then st
        else
          let st1 := (path.foldl (walkPathStep "JOIN") (st, targetTable)).1
          let sourceAlias := (aliasLookup st1.tableAliases sourceTable).getD "undefined"
          { st1 with whereConditions :=
              st1.whereConditions ++ [buildWhereClauseWithAlias tableSelections sourceAlias] }

/-- `buildTableQuery` from `QueryBuilder.ts`. -/
def buildTableQuery (targetTable : String) (selections : List FieldSelection)
    (relationships : List Relationship) (limit : Nat) : String :=
  if selections.isEmpty then
    "SELECT * FROM " ++ toSqlTableRef targetTable ++ " LIMIT " ++ toString limit
  else
    let selectionsByTable := groupSelectionsByTable selections
    if selectionsByTable.length = 1 ∧
       selectionsByTable.any (fun p => decide (p.1 = targetTable)) then
      let whereClause := buildWhereClause
        (((selectionsByTable.find? (fun p => decide (p.1 = targetTable))).map
            (fun p => p.2)).getD [])
        targetTable
      "SELECT * FROM " ++ toSqlTableRef targetTable ++ " WHERE " ++ whereClause ++
        " LIMIT " ++ toString limit
    else
      let st0 : JoinState := ⟨[(targetTable, "t")], 1, [], [], [targetTable]⟩
      let stF := selectionsByTable.foldl (addSelectionGroup targetTable relationships) st0
      let joinClause := if stF.joins.isEmpty then "" else String.intercalate "\n" stF.joins
      let whereClause := if stF.whereConditions.isEmpty then ""
        else "WHERE " ++ String.intercalate " AND " stF.whereConditions
      "SELECT DISTINCT t.* FROM " ++ toSqlTableRef targetTable ++ " t\n" ++
        joinClause ++ "\n" ++ whereClause ++ "\nLIMIT " ++ toString limit

/-- The first step of `buildPossibleValuesQuery`: drop every selection on the
queried field itself (those are alternatives, not filters). -/
def filterRelevantSelections (targetTable targetColumn : String) :
    List FieldSelection → List FieldSelection
  | [] => []
  | s :: rest =>
      if s.table = targetTable ∧ s.column = targetColumn then
        filterRelevantSelections targetTable targetColumn rest
      else s :: filterRelevantSelections targetTable targetColumn rest

/-- `buildPossibleValuesQuery` from `QueryBuilder.ts`. -/
def buildPossibleValuesQuery (targetTable targetColumn : String)
    (selections : List FieldSelection) (relationships : List Relationship) : String :=
  let relevantSelections := filterRelevantSelections targetTable targetColumn selections
  if relevantSelections.isEmpty then
    "SELECT DISTINCT \"" ++ targetColumn ++ "\" FROM " ++ toSqlTableRef targetTable
  else
    let selectionsByTable := groupSelectionsByTable relevantSelections
    let st0 : JoinState := ⟨[(targetTable, "t")], 1, [], [], [targetTable]⟩
    let stF := selectionsByTable.foldl (addSelectionGroup targetTable relationships) st0
    let joinClause := if stF.joins.isEmpty then "" else String.intercalate "\n" stF.joins
    let whereClause := if stF.whereConditions.isEmpty then ""
      else "WHERE " ++ String.intercalate " AND " stF.whereConditions
    "SELECT DISTINCT t.\"" ++ targetColumn ++ "\" FROM " ++ toSqlTableRef targetTable ++
      " t\n" ++ joinClause ++ "\n" ++ whereClause

/-- `getPrimaryTable` from `types/canvas.ts`. -/
def getPrimaryTable (columnSelections : List ColumnSelection) : Option String :=
  match columnSelections with
  | [] => none
  | cs :: _ => some cs.table

/-- JS `[...new Set(list)]`: first-occurrence deduplication. -/
def dedupStrings (l : List String) : List String :=
  l.foldl (fun acc t => if t ∈ acc then acc else acc ++ [t]) []

/-- `getTablesFromSelections` from `types/canvas.ts`. -/
def getTablesFromSelections (columnSelections : List ColumnSelection) : List String :=
  dedupStrings (columnSelections.map (fun cs => cs.table))

/-- Update-or-append on the composite column mapping (JS `Map.set`). -/
def mapSetCS (m : List (String × (String × String))) (k : String) (v : String × String) :
    List (String × (String × String)) :=
  if m.any (fun p => decide (p.1 = k)) then
    m.map (fun p => if p.1 = k then (k, v) else p)
  else m ++ [(k, v)]

/-- Display-phase iteration of `buildCompositeTableQuery`: `LEFT JOIN` a path
to each projected table, collecting tables with no path as unreachable. -/
def addDisplayTable (primaryTable : String) (relationships : List Relationship)
    (acc : JoinState × List String) (table : String) : JoinState × List String :=
  if table = primaryTable then acc
  else
    let st := acc.1
    match findPreferredPath primaryTable table relationships st.joinedTables with
    | none => (st, acc.2 ++ [table])
    | some path =>
        if path.isEmpty then (st, acc.2 ++ [table])
        else ((path.foldl (walkPathStep "LEFT JOIN") (st, primaryTable)).1, acc.2)

/-- Filter-phase iteration of `buildCompositeTableQuery`: reuse an existing
alias, or `JOIN` a path for a table that is only a filter source. -/
def addFilterGroup (primaryTable : String) (relationships : List Relationship)
    (st : JoinState) (group : String × List FieldSelection) : JoinState :=
  let sourceTable := group.1
  let tableSelections := group.2
  match aliasLookup st.tableAliases sourceTable with
  | some sourceAlias =>
      { st with whereConditions :=
          st.whereConditions ++ [buildWhereClauseWithAlias tableSelections sourceAlias] }
  | none =>
      match findPreferredPath primaryTable sourceTable relationships st.joinedTables with
      | none => st
      | some path =>
          if path.isEmpty then st
          else
            let st1 := (path.foldl (walkPathStep "JOIN") (st, primaryTable)).1
            let filterAlias := (aliasLookup st1.tableAliases sourceTable).getD "undefined"
            { st1 with whereConditions :=
                st1.whereConditions ++ [buildWhereClauseWithAlias tableSelections filterAlias] }

/-- Result of `buildCompositeTableQuery`. -/
structure CompositeQueryResult where
  query : String
  columnMapping : List (String × (String × String))
deriving Repr

/-- `buildCompositeTableQuery` from `QueryBuilder.ts`. -/
def buildCompositeTableQuery (columnSelections : List ColumnSelection)
    (selections : List FieldSelection) (relationships : List Relationship)
    (limit : Nat) : CompositeQueryResult :=
  if columnSelections.isEmpty then ⟨"SELECT 1 WHERE FALSE", []⟩
  else
    let tables := getTablesFromSelections columnSelections
    match getPrimaryTable columnSelections with
    | none => ⟨"SELECT 1 WHERE FALSE", []⟩
    | some primaryTable =>
        if tables.length = 1 then
          let cols := columnSelections.map (fun cs => cs.column)
          let selectClause := String.intercalate ", " (cols.map (fun c => "\"" ++ c ++ "\""))
          let columnMapping := columnSelections.foldl
            (fun m cs => mapSetCS m cs.column (cs.table, cs.column)) []
          let baseQuery := buildTableQuery primaryTable selections relationships limit
          ⟨"SELECT " ++ selectClause ++ " FROM (" ++ baseQuery ++ ") t", columnMapping⟩
        else
          let st0 : JoinState := ⟨[(primaryTable, "t")], 1, [], [], [primaryTable]⟩
          let da := tables.foldl (addDisplayTable primaryTable relationships) (st0, [])
          let st1 := da.1
          let unreachableTables := da.2
          let sp := columnSelections.foldl
            (fun (acc : List String × List (String × (String × String))) cs =>
              if cs.table ∈ unreachableTables then acc
              else match aliasLookup st1.tableAliases cs.table with
                | none => acc
                | some a =>
                    let outputName := cs.table ++ "." ++ cs.column
                    (acc.1 ++ [a ++ ".\"" ++ cs.column ++ "\" AS \"" ++ outputName ++ "\""],
                     mapSetCS acc.2 outputName (cs.table, cs.column)))
            ([], [])
          if sp.1.isEmpty then ⟨"SELECT 1 WHERE FALSE", []⟩
          else
            let selectionsByTable := groupSelectionsByTable selections
            let st2 := selectionsByTable.foldl (addFilterGroup primaryTable relationships) st1
            let selectClause := String.intercalate ", " sp.1
            let joinClause := if st2.joins.isEmpty then ""
              else String.intercalate "\n" st2.joins
            let whereClause := if st2.whereConditions.isEmpty then ""
              else "WHERE " ++ String.intercalate " AND " st2.whereConditions
            ⟨"SELECT DISTINCT " ++ selectClause ++ "\nFROM " ++ toSqlTableRef primaryTable ++
              " t\n" ++ joinClause ++ "\n" ++ whereClause ++ "\nLIMIT " ++ toString limit,
             sp.2⟩

/-- `t` occurs as an endpoint of some relationship in the list. -/
def tableInRels (t : String) (relationships : List Relationship) : Prop :=
  ∃ rel ∈ relationships, t = rel.fromTable ∨ t = rel.toTable

/-- A join line of the given keyword whose joined-table reference is rendered
through `toSqlTableRef` for a table of the relationship graph. -/
def joinLineOk (joinKw : String) (relationships : List Relationship) (j : String) : Prop :=
  ∃ t a c, tableInRels t relationships ∧
    j = joinKw ++ " " ++ toSqlTableRef t ++ " " ++ a ++ " ON " ++ c

/-! ## StateCalculator and AssociativeEngine facade -/

/-- The four-way value classification. -/
inductive SelectionState where
  | selected
  | possible
  | alternative
  | excluded
deriving DecidableEq, Repr

/-- The per-field `Map<DuckDBValue, SelectionState>`. -/
abbrev ValueStates := List (DuckDBValue × SelectionState)

/-- The per-field map's `Map.has`. -/
def vsHas (m : ValueStates) (v : DuckDBValue) : Bool :=
  jsMapHas m v

/-- The per-field map's `Map.set` (update in place or append). -/
def vsSet (m : ValueStates) (v : DuckDBValue) (s : SelectionState) : ValueStates :=
  jsMapSet m v s

/-- The per-field map's `Map.get`. -/
def vsGet (m : ValueStates) (v : DuckDBValue) : Option SelectionState :=
  jsMapGet m v

/-- `FieldState` from `types/selection.ts`. -/
structure FieldState where
  table : String
  column : String
  valueStates : ValueStates
deriving DecidableEq, Repr

/-- The unfiltered distinct-values query issued inside
`StateCalculator.calculateFieldState`. -/
def allValuesQuery (tableName columnName : String) : String :=
  "SELECT DISTINCT \"" ++ columnName ++ "\" FROM " ++ toSqlTableRef tableName

/-- `selections.find(s => s.table === tableName && s.column === columnName)`. -/
def findSelection (tableName columnName : String) :
    List FieldSelection → Option FieldSelection
  | [] => none
  | s :: rest =>
      if s.table = tableName ∧ s.column = columnName then some s
      else findSelection tableName columnName rest

/-- Marking loop of the selected branch: selected values first. -/
def markSelected (values : List DuckDBValue) : ValueStates :=
  values.foldl (fun m value => vsSet m value SelectionState.selected) []

/-- Marking loop of the selected branch: unseen observed values become
alternatives. -/
def markAlternatives (columnName : String) (rows : List Row) (m : ValueStates) :
    ValueStates :=
  rows.foldl (fun m row =>
    let value := rowGet row columnName
    if vsHas m value then m else vsSet m value SelectionState.alternative) m

/-- Classification loop of the unselected branch: observed values present in
the possible set are `possible`, the rest `excluded`. -/
def markPossible (columnName : String) (possibleValues : List DuckDBValue)
    (rows : List Row) : ValueStates :=
  rows.foldl (fun m row =>
    let value := rowGet row columnName
    if possibleValues.contains value then vsSet m value SelectionState.possible
    else vsSet m value SelectionState.excluded) []

/-- `StateCalculator.calculateFieldState`. The selected branch performs its
distinct-values query outside any `try`, so a failure there rejects the
returned promise (`.error`); the unselected branch wraps both queries in
`try`/`catch` and falls back to an unclassified (empty) map. -/
def calculateFieldState (tableName columnName : String)
    (selections : List FieldSelection) (relationships : List Relationship)
    (executeQuery : QueryExecutor) : Except String FieldState :=
  match findSelection tableName columnName selections with
  | some fieldSelection =>
      let valueStates := markSelected fieldSelection.values
      match executeQuery (allValuesQuery tableName columnName) with
      | Except.error e => Except.error e
      | Except.ok rows =>
          Except.ok { table := tableName, column := columnName,
                      valueStates := markAlternatives columnName rows valueStates }
  | none =>
      let possibleQuery := buildPossibleValuesQuery tableName columnName selections relationships
      match executeQuery possibleQuery with
      | Except.error _ =>
          Except.ok { table := tableName, column := columnName, valueStates := [] }
      | Except.ok possibleResult =>
          let possibleValues := possibleResult.map (fun row => rowGet row columnName)
          match executeQuery (allValuesQuery tableName columnName) with
          | Except.error _ =>
              Except.ok { table := tableName, column := columnName, valueStates := [] }
          | Except.ok allValuesResult =>
              Except.ok { table := tableName, column := columnName,
                          valueStates := markPossible columnName possibleValues allValuesResult }

/-- The field list computed by `calculateFieldStates`: every field when no
allow-list is supplied (or it is empty), otherwise the selected fields plus
the allow-listed ones. -/
def fieldsToCalculate (tables : List TableSchema) (selections : List FieldSelection)
    (targetFields : Option (List ColumnSelection)) : List (String × String) :=
  let selectedFieldKeys := selections.map (fun s => s.table ++ "." ++ s.column)
  let targetFieldKeys := selectedFieldKeys ++
    (match targetFields with
     | some fs => fs.map (fun f => f.table ++ "." ++ f.column)
     | none => [])
  let shouldCalculateAll :=
    match targetFields with
    | none => true
    | some fs => fs.isEmpty
  tables.flatMap (fun table =>
    table.columns.filterMap (fun column =>
      if shouldCalculateAll = true ∨ (table.name ++ "." ++ column.name) ∈ targetFieldKeys then
        some (table.name, column.name)
      else none))

/-- `StateCalculator.calculateFieldStates`: `Promise.all` over the per-field
computations (any rejected field computation rejects the whole call). -/
def calculateFieldStates (tables : List TableSchema) (selections : List FieldSelection)
    (relationships : List Relationship) (executeQuery : QueryExecutor)
    (targetFields : Option (List ColumnSelection)) : Except String (List FieldState) :=
  if selections.isEmpty then Except.ok []
  else
    (fieldsToCalculate tables selections targetFields).mapM
      (fun field => calculateFieldState field.1 field.2 selections relationships executeQuery)

/-- The query issued by `AssociativeEngine.getFieldValues`. Note the table
name is interpolated as a single quoted identifier after `loaded_db.`,
without going through `toSqlTableRef`. -/
def getFieldValuesQuery (tableName columnName : String) : String :=
  "SELECT DISTINCT \"" ++ columnName ++ "\" FROM loaded_db.\"" ++ tableName ++
    "\" ORDER BY \"" ++ columnName ++ "\" LIMIT 10000"

/-- `AssociativeEngine.getFieldValues`: run the distinct-values query and
project the queried column out of each row. -/
def getFieldValues (tableName columnName : String) (executeQuery : QueryExecutor) :
    Except String (List DuckDBValue) :=
  match executeQuery (getFieldValuesQuery tableName columnName) with
  | Except.error e => Except.error e
  | Except.ok rows => Except.ok (rows.map (fun row => rowGet row columnName))

/-- Result of `AssociativeEngine.getSelectionStats`. -/
structure SelectionStats where
  totalTables : Nat
  affectedTables : Nat
  selectedValues : Nat
  possibleRecords : List (String × Nat)
deriving Repr

/-- `Map.set` on the per-table record counts. -/
def recSet (m : List (String × Nat)) (k : String) (v : Nat) : List (String × Nat) :=
  jsMapSet m k v

/-- `Map.get` on the per-table record counts. -/
def recGet (m : List (String × Nat)) (k : String) : Option Nat :=
  jsMapGet m k

/-- `AssociativeEngine.getSelectionStats`: counts plus a per-table reachable
row count; a failing per-table query is caught and recorded as zero. -/
def getSelectionStats (tables : List TableSchema) (selections : List FieldSelection)
    (relationships : List Relationship) (executeQuery : QueryExecutor) : SelectionStats :=
  let selectedValues := selections.foldl (fun acc sel => acc + sel.values.length) 0
  let affectedTables := (dedupStrings (selections.map (fun s => s.table))).length
  let possibleRecords := tables.foldl (fun m table =>
    let query := buildTableQuery table.name selections relationships 10001
    match executeQuery query with
    | Except.ok result => recSet m table.name (min result.length 10000)
    | Except.error _ => recSet m table.name 0) []
  { totalTables := tables.length,
    affectedTables := affectedTables,
    selectedValues := selectedValues,
    possibleRecords := possibleRecords }

/-! ## Graph-search correctness (findConnectedTables and findPath) -/

/-- The relationship `rel`, read undirected, links `u` to `v`. -/
def AdjacentRel (rel : Relationship) (u v : String) : Prop :=
  (rel.fromTable = u ∧ rel.toTable = v) ∨ (rel.toTable = u ∧ rel.fromTable = v)

/-- Some relationship in the list links `u` to `v`. -/
def Adjacent (relationships : List Relationship) (u v : String) : Prop :=
  ∃ rel ∈ relationships, AdjacentRel rel u v

/-- Reachability over the undirected view of the relationship list. -/
inductive ReachableFrom (relationships : List Relationship) (start : String) : String → Prop
  | refl : ReachableFrom relationships start start
  | step {u v : String} : ReachableFrom relationships start u →
      Adjacent relationships u v → ReachableFrom relationships start v

theorem adjacentRel_symm {rel : Relationship} {u v : String}
    (h : AdjacentRel rel u v) : AdjacentRel rel v u := by
  rcases h with ⟨h1, h2⟩ | ⟨h1, h2⟩
  · exact Or.inr ⟨h2, h1⟩
  · exact Or.inl ⟨h2, h1⟩

theorem adjacentRel_mem_allTables {relationships : List Relationship} {start : String}
    {rel : Relationship} {u v : String} (hrel : rel ∈ relationships)
    (h : AdjacentRel rel u v) : v ∈ allTables relationships start := by
  unfold allTables
  rcases h with ⟨_, h2⟩ | ⟨_, h2⟩
  · exact List.mem_cons_of_mem _ (List.mem_flatMap.mpr ⟨rel, hrel, by simp [h2]⟩)
  · exact List.mem_cons_of_mem _ (List.mem_flatMap.mpr ⟨rel, hrel, by simp [h2]⟩)

theorem reachable_mem_closed {relationships : List Relationship} {x t : String}
    {V : List String} (hx : x ∈ V)
    (hclosed : ∀ u ∈ V, ∀ v, Adjacent relationships u v → v ∈ V)
    (h : ReachableFrom relationships x t) : t ∈ V := by
  induction h with
  | refl => exact hx
  | step _ hadj ih => exact hclosed _ ih _ hadj

/-- Everything already queued survives an expansion step. -/
theorem expandConnected_mono {visited : List String} {current : String} :
    ∀ (rels : List Relationship) (queue : List String) {x : String},
      x ∈ queue → x ∈ expandConnected visited current rels queue := by
  intro rels
  induction rels with
  | nil => intro queue x hx; simpa [expandConnected] using hx
  | cons rel rest ih =>
      intro queue x hx
      simp only [expandConnected]
      apply ih
      split <;> split <;> simp [hx]

/-- Everything an expansion step adds is adjacent to the expanded table and
unvisited. -/
theorem expandConnected_members {visited : List String} {current : String} :
    ∀ (rels : List Relationship) (queue : List String) {x : String},
      x ∈ expandConnected visited current rels queue →
      x ∈ queue ∨ ((∃ rel ∈ rels, AdjacentRel rel current x) ∧ x ∉ visited) := by
  intro rels
  induction rels with
  | nil => intro queue x hx; exact Or.inl (by simpa [expandConnected] using hx)
  | cons rel rest ih =>
      intro queue x hx
      simp only [expandConnected] at hx
      rcases ih _ hx with hq | ⟨⟨r, hr, hadj⟩, hnv⟩
      · by_cases c1 : rel.fromTable = current ∧ rel.toTable ∉ visited <;>
          by_cases c2 : rel.toTable = current ∧ rel.fromTable ∉ visited
        · rw [if_pos c2, if_pos c1] at hq
          simp only [List.mem_append, List.mem_singleton] at hq
          rcases hq with (hq | rfl) | rfl
          · exact Or.inl hq
          · exact Or.inr ⟨⟨rel, List.mem_cons_self rel rest, Or.inl ⟨c1.1, rfl⟩⟩, c1.2⟩
          · exact Or.inr ⟨⟨rel, List.mem_cons_self rel rest, Or.inr ⟨c2.1, rfl⟩⟩, c2.2⟩
        · rw [if_neg c2, if_pos c1] at hq
          simp only [List.mem_append, List.mem_singleton] at hq
          rcases hq with hq | rfl
          · exact Or.inl hq
          · exact Or.inr ⟨⟨rel, List.mem_cons_self rel rest, Or.inl ⟨c1.1, rfl⟩⟩, c1.2⟩
        · rw [if_pos c2, if_neg c1] at hq
          simp only [List.mem_append, List.mem_singleton] at hq
          rcases hq with hq | rfl
          · exact Or.inl hq
          · exact Or.inr ⟨⟨rel, List.mem_cons_self rel rest, Or.inr ⟨c2.1, rfl⟩⟩, c2.2⟩
        · rw [if_neg c2, if_neg c1] at hq
          exact Or.inl hq
      · exact Or.inr ⟨⟨r, List.mem_cons_of_mem _ hr, hadj⟩, hnv⟩

/-- After an expansion step, every neighbour of the expanded table is either
visited or queued. -/
theorem expandConnected_closure {visited : List String} {current : String} :
    ∀ (rels : List Relationship) (queue : List String) {rel : Relationship} {v : String},
      rel ∈ rels → AdjacentRel rel current v →
      v ∈ visited ∨ v ∈ expandConnected visited current rels queue := by
  intro rels
  induction rels with
  | nil => intro queue rel v h; exact absurd h (List.not_mem_nil rel)
  | cons r rest ih =>
      intro queue rel v hmem hadj
      rcases List.mem_cons.mp hmem with rfl | hmem
      · -- the witnessing relationship is processed in this step
        by_cases hv : v ∈ visited
        · exact Or.inl hv
        · refine Or.inr ?_
          simp only [expandConnected]
          apply expandConnected_mono
          rcases hadj with ⟨h1, h2⟩ | ⟨h1, h2⟩
          · have hcond : rel.fromTable = current ∧ rel.toTable ∉ visited := ⟨h1, h2 ▸ hv⟩
            rw [if_pos hcond]
            split <;> simp [h2]
          · by_cases hfirst : rel.fromTable = current ∧ rel.toTable ∉ visited
            · rw [if_pos hfirst]
              have hcond2 : rel.toTable = current ∧ rel.fromTable ∉ visited := ⟨h1, h2 ▸ hv⟩
              rw [if_pos hcond2]
              simp [h2]
            · rw [if_neg hfirst]
              have hcond2 : rel.toTable = current ∧ rel.fromTable ∉ visited := ⟨h1, h2 ▸ hv⟩
              rw [if_pos hcond2]
              simp [h2]
      · simp only [expandConnected]
        exact ih _ hmem hadj

/-- Each expansion step pushes at most two entries per relationship. -/
theorem expandConnected_length (visited : List String) (current : String) :
    ∀ (rels : List Relationship) (queue : List String),
      (expandConnected visited current rels queue).length ≤
        queue.length + 2 * rels.length := by
  intro rels
  induction rels with
  | nil => intro queue; simp [expandConnected]
  | cons rel rest ih =>
      intro queue
      simp only [expandConnected]
      refine le_trans (ih _) ?_
      split <;> split <;> (simp only [List.length_append, List.length_cons, List.length_nil]; omega)

/-- The visited list only grows. -/
theorem bfsConnected_mono {R : List Relationship} :
    ∀ (fuel : Nat) (visited queue : List String) {x : String},
      x ∈ visited → x ∈ bfsConnected R fuel visited queue := by
  intro fuel
  induction fuel with
  | zero => intro visited queue x hx; simpa [bfsConnected] using hx
  | succ fuel ih =>
      intro visited queue x hx
      cases queue with
      | nil => simpa [bfsConnected] using hx
      | cons current queue =>
          by_cases hcur : current ∈ visited
          · simpa only [bfsConnected, if_pos hcur] using ih visited queue hx
          · simp only [bfsConnected, if_neg hcur]
            exact ih _ _ (List.mem_append_left _ hx)

/-- Everything `bfsConnected` returns is reachable from `start`, provided the
initial visited list and queue are. -/
theorem bfsConnected_sound {R : List Relationship} {s : String} :
    ∀ (fuel : Nat) (visited queue : List String),
      (∀ t ∈ visited, ReachableFrom R s t) →
      (∀ t ∈ queue, ReachableFrom R s t) →
      ∀ t ∈ bfsConnected R fuel visited queue, ReachableFrom R s t := by
  intro fuel
  induction fuel with
  | zero => intro visited queue hv _ t ht; exact hv t (by simpa [bfsConnected] using ht)
  | succ fuel ih =>
      intro visited queue hv hq t ht
      cases queue with
      | nil => exact hv t (by simpa [bfsConnected] using ht)
      | cons current queue =>
          by_cases hcur : current ∈ visited
          · rw [bfsConnected, if_pos hcur] at ht
            exact ih visited queue hv (fun u hu => hq u (List.mem_cons_of_mem _ hu)) t ht
          · rw [bfsConnected, if_neg hcur] at ht
            refine ih _ _ ?_ ?_ t ht
            · intro u hu
              rcases List.mem_append.mp hu with hu | hu
              · exact hv u hu
              · simp only [List.mem_singleton] at hu
                exact hu ▸ hq current (List.mem_cons_self _ _)
            · intro u hu
              rcases expandConnected_members R queue hu with hu | ⟨⟨rel, hrel, hadj⟩, _⟩
              · exact hq u (List.mem_cons_of_mem _ hu)
              · exact ReachableFrom.step (hq current (List.mem_cons_self _ _)) ⟨rel, hrel, hadj⟩

/-- A pointwise-stronger filter predicate yields a shorter filtered list. -/
theorem filter_length_mono {l : List String} {p q : String → Bool}
    (h : ∀ x ∈ l, p x = true → q x = true) :
    (l.filter p).length ≤ (l.filter q).length := by
  induction l with
  | nil => simp
  | cons a l ih =>
      have ih1 := ih (fun x hx => h x (List.mem_cons_of_mem _ hx))
      by_cases hp : p a = true
      · have hq1 := h a (List.mem_cons_self _ _) hp
        simp only [List.filter_cons, hp, hq1, if_pos, List.length_cons]
        omega
      · by_cases hq1 : q a = true <;>
          simp only [List.filter_cons, hp, hq1, Bool.false_eq_true, if_false, if_pos,
            List.length_cons] <;> omega

/-- Visiting one more table that occurs in the list strictly shrinks the
unvisited filter. -/
theorem filter_visited_lt {l v : List String} {a : String}
    (hal : a ∈ l) (hav : a ∉ v) :
    (l.filter (fun t => decide (t ∉ v ++ [a]))).length <
      (l.filter (fun t => decide (t ∉ v))).length := by
  induction l with
  | nil => cases hal
  | cons b l ih =>
      by_cases hb : b = a
      · subst hb
        have h1 : (decide (b ∉ v ++ [b])) = false := by simp
        have h2 : (decide (b ∉ v)) = true := by simpa using hav
        simp only [List.filter_cons, h1, h2, Bool.false_eq_true, if_false, if_pos,
          List.length_cons]
        refine Nat.lt_succ_of_le (filter_length_mono ?_)
        intro x _ hx
        simp only [decide_eq_true_eq] at hx ⊢
        intro hxv
        exact hx (List.mem_append_left _ hxv)
      · have hal1 : a ∈ l := by
          rcases List.mem_cons.mp hal with h | h
          · exact absurd h.symm hb
          · exact h
        have hsame : (decide (b ∉ v ++ [a])) = (decide (b ∉ v)) := by
          by_cases hbv : b ∈ v
          · simp [hbv]
          · simp [hbv, hb]
        by_cases hbv : (decide (b ∉ v)) = true <;>
          · rw [List.filter_cons, List.filter_cons, hsame]
            first
              | (rw [if_pos hbv, if_pos hbv]
                 simp only [List.length_cons]
                 exact Nat.succ_lt_succ (ih hal1))
              | (rw [if_neg hbv, if_neg hbv]
                 exact ih hal1)

/-- Main invariant of the `findConnectedTables` loop: with adequate fuel the
search absorbs its whole queue and returns an adjacency-closed visited list. -/
theorem bfsConnected_complete {R : List Relationship} {s : String} :
    ∀ (fuel : Nat) (visited queue : List String),
      (∀ t ∈ queue, t ∈ allTables R s) →
      (∀ u ∈ visited, ∀ v, Adjacent R u v → v ∈ visited ∨ v ∈ queue) →
      queue.length +
        ((allTables R s).filter (fun t => decide (t ∉ visited))).length *
          (2 * R.length + 1) ≤ fuel →
      (∀ t ∈ queue, t ∈ bfsConnected R fuel visited queue) ∧
      (∀ u ∈ bfsConnected R fuel visited queue, ∀ v, Adjacent R u v →
          v ∈ bfsConnected R fuel visited queue) := by
  intro fuel
  induction fuel with
  | zero =>
      intro visited queue hq hclosed hfuel
      have hq0 : queue = [] := by
        cases queue with
        | nil => rfl
        | cons a l => simp [List.length_cons] at hfuel
      subst hq0
      refine ⟨by simp, ?_⟩
      intro u hu v hadj
      simp only [bfsConnected] at hu ⊢
      exact (hclosed u hu v hadj).resolve_right (List.not_mem_nil v)
  | succ fuel ih =>
      intro visited queue hq hclosed hfuel
      cases queue with
      | nil =>
          refine ⟨by simp, ?_⟩
          intro u hu v hadj
          simp only [bfsConnected] at hu ⊢
          exact (hclosed u hu v hadj).resolve_right (List.not_mem_nil v)
      | cons current queue =>
          by_cases hcur : current ∈ visited
          · have hq1 : ∀ t ∈ queue, t ∈ allTables R s :=
              fun t ht => hq t (List.mem_cons_of_mem _ ht)
            have hclosed1 : ∀ u ∈ visited, ∀ v, Adjacent R u v → v ∈ visited ∨ v ∈ queue := by
              intro u hu v hadj
              rcases hclosed u hu v hadj with h | h
              · exact Or.inl h
              · rcases List.mem_cons.mp h with rfl | h
                · exact Or.inl hcur
                · exact Or.inr h
            have hfuel1 : queue.length +
                ((allTables R s).filter (fun t => decide (t ∉ visited))).length *
                  (2 * R.length + 1) ≤ fuel := by
              simp only [List.length_cons] at hfuel
              omega
            obtain ⟨h1, h2⟩ := ih visited queue hq1 hclosed1 hfuel1
            rw [bfsConnected, if_pos hcur]
            refine ⟨?_, h2⟩
            intro t ht
            rcases List.mem_cons.mp ht with rfl | ht
            · exact bfsConnected_mono fuel visited queue hcur
            · exact h1 t ht
          · rw [bfsConnected, if_neg hcur]
            have hcurAll : current ∈ allTables R s := hq current (List.mem_cons_self _ _)
            have hq1 : ∀ t ∈ expandConnected (visited ++ [current]) current R queue,
                t ∈ allTables R s := by
              intro t ht
              rcases expandConnected_members R queue ht with ht | ⟨⟨rel, hrel, hadj⟩, _⟩
              · exact hq t (List.mem_cons_of_mem _ ht)
              · exact adjacentRel_mem_allTables hrel hadj
            have hclosed1 : ∀ u ∈ visited ++ [current], ∀ v, Adjacent R u v →
                v ∈ visited ++ [current] ∨
                v ∈ expandConnected (visited ++ [current]) current R queue := by
              intro u hu v hadj
              rcases List.mem_append.mp hu with hu | hu
              · rcases hclosed u hu v hadj with h | h
                · exact Or.inl (List.mem_append_left _ h)
                · rcases List.mem_cons.mp h with rfl | h
                  · exact Or.inl (List.mem_append_right _ (List.mem_singleton_self _))
                  · exact Or.inr (expandConnected_mono R queue h)
              · simp only [List.mem_singleton] at hu
                subst hu
                rcases hadj with ⟨rel, hrel, hadjrel⟩
                exact expandConnected_closure R queue hrel hadjrel
            have hfuel1 : (expandConnected (visited ++ [current]) current R queue).length +
                ((allTables R s).filter
                  (fun t => decide (t ∉ visited ++ [current]))).length *
                  (2 * R.length + 1) ≤ fuel := by
              have hlen := expandConnected_length (visited ++ [current]) current R queue
              have hlt := filter_visited_lt (l := allTables R s) (v := visited)
                (a := current) hcurAll hcur
              have hsucc : ((allTables R s).filter
                    (fun t => decide (t ∉ visited ++ [current]))).length + 1 ≤
                  ((allTables R s).filter (fun t => decide (t ∉ visited))).length := hlt
              have hmul := Nat.mul_le_mul_right (2 * R.length + 1) hsucc
              rw [Nat.succ_mul] at hmul
              simp only [List.length_cons] at hfuel
              linarith
            obtain ⟨h1, h2⟩ := ih (visited ++ [current])
              (expandConnected (visited ++ [current]) current R queue) hq1 hclosed1 hfuel1
            refine ⟨?_, h2⟩
            intro t ht
            rcases List.mem_cons.mp ht with rfl | ht
            · exact bfsConnected_mono fuel _ _
                (List.mem_append_right _ (List.mem_singleton_self _))
            · exact h1 t (expandConnected_mono R queue ht)

/-- `start` is always in its own connected set. -/
theorem mem_findConnectedTables_self (start : String) (R : List Relationship) :
    start ∈ findConnectedTables start R := by
  have h := bfsConnected_complete (R := R) (s := start)
    (connectedFuel R start) [] [start]
    (by
      intro t ht
      rcases List.mem_cons.mp ht with rfl | ht
      · exact List.mem_cons_self _ _
      · cases ht)
    (by intro u hu; cases hu)
    (by
      unfold connectedFuel
      simp [List.filter_eq_self])
  exact h.1 start (List.mem_cons_self _ _)

/-- Membership in `findConnectedTables` coincides with reachability. -/
theorem mem_findConnectedTables_iff {start t : String} {R : List Relationship} :
    t ∈ findConnectedTables start R ↔ ReachableFrom R start t := by
  constructor
  · intro ht
    refine bfsConnected_sound (s := start) (connectedFuel R start) [] [start]
      (by intro u hu; cases hu) ?_ t ht
    intro u hu
    rcases List.mem_cons.mp hu with rfl | hu
    · exact ReachableFrom.refl
    · cases hu
  · intro ht
    have h := bfsConnected_complete (R := R) (s := start)
      (connectedFuel R start) [] [start]
      (by
        intro u hu
        rcases List.mem_cons.mp hu with rfl | hu
        · exact List.mem_cons_self _ _
        · cases hu)
      (by intro u hu; cases hu)
      (by
        unfold connectedFuel
        simp [List.filter_eq_self])
    have hstart : start ∈ findConnectedTables start R := h.1 start (List.mem_cons_self _ _)
    exact reachable_mem_closed hstart h.2 ht

/-- When the inner relationship loop completes without an early return, the
incoming queue survives into the outgoing queue. -/
theorem expandPath_ok_mono {toTable table : String} {visited : List String}
    {path : List Relationship} :
    ∀ (rels : List Relationship) (queue queue1 : List (String × List Relationship)),
      expandPath toTable table visited path rels queue = Except.ok queue1 →
      ∀ e ∈ queue, e ∈ queue1 := by
  intro rels
  induction rels with
  | nil =>
      intro queue queue1 h e he
      simp only [expandPath] at h
      cases h
      exact he
  | cons rel rest ih =>
      intro queue queue1 h e he
      simp only [expandPath] at h
      cases hnt : pathNextTable visited table rel with
      | none => simp only [hnt] at h; exact ih _ _ h e he
      | some nextTable =>
          simp only [hnt] at h
          by_cases hy : nextTable = toTable
          · rw [if_pos hy] at h; cases h
          · rw [if_neg hy] at h
            exact ih _ _ h e (List.mem_append_left _ he)

/-- A candidate produced by `pathNextTable` is adjacent to the current table
and unvisited. -/
theorem pathNextTable_spec {visited : List String} {table : String}
    {rel : Relationship} {nextTable : String}
    (h : pathNextTable visited table rel = some nextTable) :
    AdjacentRel rel table nextTable ∧ nextTable ∉ visited := by
  unfold pathNextTable at h
  by_cases h1 : rel.fromTable = table ∧ rel.toTable ∉ visited
  · rw [if_pos h1] at h
    cases h
    exact ⟨Or.inl ⟨h1.1, rfl⟩, h1.2⟩
  · rw [if_neg h1] at h
    by_cases h2 : rel.toTable = table ∧ rel.fromTable ∉ visited
    · rw [if_pos h2] at h
      cases h
      exact ⟨Or.inr ⟨h2.1, rfl⟩, h2.2⟩
    · rw [if_neg h2] at h
      cases h

/-- When the inner loop completes, every outgoing entry is an incoming one or
an unvisited neighbour of the current table, and never the target. -/
theorem expandPath_ok_members {toTable table : String} {visited : List String}
    {path : List Relationship} :
    ∀ (rels : List Relationship) (queue queue1 : List (String × List Relationship)),
      expandPath toTable table visited path rels queue = Except.ok queue1 →
      ∀ e ∈ queue1, e ∈ queue ∨
        ((∃ rel ∈ rels, AdjacentRel rel table e.1) ∧ e.1 ∉ visited ∧ ¬ e.1 = toTable) := by
  intro rels
  induction rels with
  | nil =>
      intro queue queue1 h e he
      simp only [expandPath] at h
      cases h
      exact Or.inl he
  | cons rel rest ih =>
      intro queue queue1 h e he
      simp only [expandPath] at h
      cases hnt : pathNextTable visited table rel with
      | none =>
          simp only [hnt] at h
          rcases ih _ _ h e he with h1 | ⟨⟨r, hr, hadj⟩, hnv, hny⟩
          · exact Or.inl h1
          · exact Or.inr ⟨⟨r, List.mem_cons_of_mem _ hr, hadj⟩, hnv, hny⟩
      | some nextTable =>
          simp only [hnt] at h
          by_cases hy : nextTable = toTable
          · rw [if_pos hy] at h; cases h
          · rw [if_neg hy] at h
            rcases ih _ _ h e he with h1 | ⟨⟨r, hr, hadj⟩, hnv, hny⟩
            · rcases List.mem_append.mp h1 with h2 | h2
              · exact Or.inl h2
              · simp only [List.mem_singleton] at h2
                subst h2
                obtain ⟨hadj, hnv⟩ := pathNextTable_spec hnt
                exact Or.inr ⟨⟨rel, List.mem_cons_self _ _, hadj⟩, hnv, hy⟩
            · exact Or.inr ⟨⟨r, List.mem_cons_of_mem _ hr, hadj⟩, hnv, hny⟩

/-- When the inner loop completes with the current table already visited,
every neighbour of the current table ends up visited or queued. -/
theorem expandPath_ok_closure {toTable table : String} {visited : List String}
    {path : List Relationship} :
    ∀ (rels : List Relationship) (queue queue1 : List (String × List Relationship)),
      expandPath toTable table visited path rels queue = Except.ok queue1 →
      table ∈ visited →
      ∀ rel ∈ rels, ∀ v, AdjacentRel rel table v →
        v ∈ visited ∨ ∃ p, (v, p) ∈ queue1 := by
  intro rels
  induction rels with
  | nil =>
      intro queue queue1 h htv rel hrel
      cases hrel
  | cons r rest ih =>
      intro queue queue1 h htv rel hrel v hadj
      simp only [expandPath] at h
      rcases List.mem_cons.mp hrel with rfl | hrel
      · by_cases hv : v ∈ visited
        · exact Or.inl hv
        · have hnt : pathNextTable visited table rel = some v := by
            unfold pathNextTable
            rcases hadj with ⟨h1, h2⟩ | ⟨h1, h2⟩
            · rw [if_pos ⟨h1, h2 ▸ hv⟩, h2]
            · have hfirst : ¬ (rel.fromTable = table ∧ rel.toTable ∉ visited) := by
                intro hc
                exact (h1 ▸ hc.2) htv
              rw [if_neg hfirst, if_pos ⟨h1, h2 ▸ hv⟩, h2]
          simp only [hnt] at h
          by_cases hy : v = toTable
          · rw [if_pos hy] at h; cases h
          · rw [if_neg hy] at h
            refine Or.inr ⟨path ++ [rel], ?_⟩
            exact expandPath_ok_mono rest _ _ h _
              (List.mem_append_right _ (List.mem_singleton_self _))
      · cases hnt : pathNextTable visited table r with
        | none =>
            simp only [hnt] at h
            exact ih _ _ h htv rel hrel v hadj
        | some nextTable =>
            simp only [hnt] at h
            by_cases hy : nextTable = toTable
            · rw [if_pos hy] at h; cases h
            · rw [if_neg hy] at h
              exact ih _ _ h htv rel hrel v hadj

/-- An early return from the inner loop means the current table is adjacent
to the target. -/
theorem expandPath_error_adjacent {toTable table : String} {visited : List String}
    {path : List Relationship} :
    ∀ (rels : List Relationship) (queue : List (String × List Relationship))
      (found : List Relationship),
      expandPath toTable table visited path rels queue = Except.error found →
      ∃ rel ∈ rels, AdjacentRel rel table toTable := by
  intro rels
  induction rels with
  | nil =>
      intro queue found h
      simp only [expandPath] at h
      cases h
  | cons rel rest ih =>
      intro queue found h
      simp only [expandPath] at h
      cases hnt : pathNextTable visited table rel with
      | none =>
          simp only [hnt] at h
          obtain ⟨r, hr, hadj⟩ := ih _ _ h
          exact ⟨r, List.mem_cons_of_mem _ hr, hadj⟩
      | some nextTable =>
          simp only [hnt] at h
          by_cases hy : nextTable = toTable
          · exact ⟨rel, List.mem_cons_self _ _, hy ▸ (pathNextTable_spec hnt).1⟩
          · rw [if_neg hy] at h
            obtain ⟨r, hr, hadj⟩ := ih _ _ h
            exact ⟨r, List.mem_cons_of_mem _ hr, hadj⟩

/-- The inner loop pushes at most one entry per relationship. -/
theorem expandPath_ok_length {toTable table : String} {visited : List String}
    {path : List Relationship} :
    ∀ (rels : List Relationship) (queue queue1 : List (String × List Relationship)),
      expandPath toTable table visited path rels queue = Except.ok queue1 →
      queue1.length ≤ queue.length + rels.length := by
  intro rels
  induction rels with
  | nil =>
      intro queue queue1 h
      simp only [expandPath] at h
      cases h
      simp
  | cons rel rest ih =>
      intro queue queue1 h
      simp only [expandPath] at h
      cases hnt : pathNextTable visited table rel with
      | none =>
          simp only [hnt] at h
          have := ih _ _ h
          simp only [List.length_cons]
          omega
      | some nextTable =>
          simp only [hnt] at h
          by_cases hy : nextTable = toTable
          · rw [if_pos hy] at h; cases h
          · rw [if_neg hy] at h
            have := ih _ _ h
            simp only [List.length_append, List.length_cons, List.length_nil] at this ⊢
            omega

/-- A path found by the search witnesses reachability of the target. -/
theorem bfsPath_sound {R : List Relationship} {x y : String} :
    ∀ (fuel : Nat) (visited : List String) (queue : List (String × List Relationship)),
      (∀ e ∈ queue, ReachableFrom R x e.1) →
      ∀ p, bfsPath R y fuel visited queue = some p → ReachableFrom R x y := by
  intro fuel
  induction fuel with
  | zero => intro visited queue _ p h; simp [bfsPath] at h
  | succ fuel ih =>
      intro visited queue hq p h
      cases queue with
      | nil => simp [bfsPath] at h
      | cons e queue =>
          obtain ⟨table, path⟩ := e
          by_cases hcur : table ∈ visited
          · rw [bfsPath, if_pos hcur] at h
            exact ih visited queue (fun e he => hq e (List.mem_cons_of_mem _ he)) p h
          · rw [bfsPath, if_neg hcur] at h
            dsimp only at h
            have hreach : ReachableFrom R x table := hq _ (List.mem_cons_self _ _)
            cases hexp : expandPath y table (visited ++ [table]) path R queue with
            | error found =>
                obtain ⟨rel, hrel, hadj⟩ := expandPath_error_adjacent R queue found hexp
                exact ReachableFrom.step hreach ⟨rel, hrel, hadj⟩
            | ok queue1 =>
                rw [hexp] at h
                refine ih _ queue1 ?_ p h
                intro e he
                rcases expandPath_ok_members R queue queue1 hexp e he with he1 | ⟨⟨rel, hrel, hadj⟩, _, _⟩
                · exact hq e (List.mem_cons_of_mem _ he1)
                · exact ReachableFrom.step hreach ⟨rel, hrel, hadj⟩

/-- Main invariant of the `findPath` loop: with adequate fuel, a `none`
result exhibits an adjacency-closed set of tables that contains the whole
frontier but not the target. -/
theorem bfsPath_none_closed {R : List Relationship} {x y : String} :
    ∀ (fuel : Nat) (visited : List String) (queue : List (String × List Relationship)),
      (∀ e ∈ queue, e.1 ∈ allTables R x) →
      (∀ u ∈ visited, ∀ v, Adjacent R u v → v ∈ visited ∨ ∃ p, (v, p) ∈ queue) →
      y ∉ visited →
      (∀ e ∈ queue, ¬ e.1 = y) →
      queue.length +
        ((allTables R x).filter (fun t => decide (t ∉ visited))).length *
          (R.length + 1) ≤ fuel →
      bfsPath R y fuel visited queue = none →
      ∃ V : List String, (∀ u ∈ visited, u ∈ V) ∧ (∀ e ∈ queue, e.1 ∈ V) ∧
        (∀ u ∈ V, ∀ v, Adjacent R u v → v ∈ V) ∧ y ∉ V := by
  intro fuel
  induction fuel with
  | zero =>
      intro visited queue hq hclosed hy1 hy2 hfuel _
      have hq0 : queue = [] := by
        cases queue with
        | nil => rfl
        | cons a l => simp [List.length_cons] at hfuel
      subst hq0
      refine ⟨visited, fun u hu => hu, by simp, ?_, hy1⟩
      intro u hu v hadj
      rcases hclosed u hu v hadj with h | ⟨p, hp⟩
      · exact h
      · cases hp
  | succ fuel ih =>
      intro visited queue hq hclosed hy1 hy2 hfuel hnone
      cases queue with
      | nil =>
          refine ⟨visited, fun u hu => hu, by simp, ?_, hy1⟩
          intro u hu v hadj
          rcases hclosed u hu v hadj with h | ⟨p, hp⟩
          · exact h
          · cases hp
      | cons e queue =>
          obtain ⟨table, path⟩ := e
          by_cases hcur : table ∈ visited
          · rw [bfsPath, if_pos hcur] at hnone
            have hclosed1 : ∀ u ∈ visited, ∀ v, Adjacent R u v →
                v ∈ visited ∨ ∃ p, (v, p) ∈ queue := by
              intro u hu v hadj
              rcases hclosed u hu v hadj with h | ⟨p, hp⟩
              · exact Or.inl h
              · rcases List.mem_cons.mp hp with heq | hp
                · have : v = table := by cases heq; rfl
                  exact Or.inl (this ▸ hcur)
                · exact Or.inr ⟨p, hp⟩
            have hfuel1 : queue.length +
                ((allTables R x).filter (fun t => decide (t ∉ visited))).length *
                  (R.length + 1) ≤ fuel := by
              simp only [List.length_cons] at hfuel
              omega
            obtain ⟨V, hV1, hV2, hV3, hV4⟩ := ih visited queue
              (fun e he => hq e (List.mem_cons_of_mem _ he)) hclosed1 hy1
              (fun e he => hy2 e (List.mem_cons_of_mem _ he)) hfuel1 hnone
            refine ⟨V, hV1, ?_, hV3, hV4⟩
            intro e he
            rcases List.mem_cons.mp he with rfl | he
            · exact hV1 table hcur
            · exact hV2 e he
          · rw [bfsPath, if_neg hcur] at hnone
            dsimp only at hnone
            cases hexp : expandPath y table (visited ++ [table]) path R queue with
            | error found => rw [hexp] at hnone; cases hnone
            | ok queue1 =>
                rw [hexp] at hnone
                have htable1 : table ∈ visited ++ [table] :=
                  List.mem_append_right _ (List.mem_singleton_self _)
                have hq1 : ∀ e ∈ queue1, e.1 ∈ allTables R x := by
                  intro e he
                  rcases expandPath_ok_members R queue queue1 hexp e he with
                    he1 | ⟨⟨rel, hrel, hadj⟩, _, _⟩
                  · exact hq e (List.mem_cons_of_mem _ he1)
                  · exact adjacentRel_mem_allTables hrel hadj
                have hclosed1 : ∀ u ∈ visited ++ [table], ∀ v, Adjacent R u v →
                    v ∈ visited ++ [table] ∨ ∃ p, (v, p) ∈ queue1 := by
                  intro u hu v hadj
                  rcases List.mem_append.mp hu with hu | hu
                  · rcases hclosed u hu v hadj with h | ⟨p, hp⟩
                    · exact Or.inl (List.mem_append_left _ h)
                    · rcases List.mem_cons.mp hp with heq | hp
                      · have : v = table := by cases heq; rfl
                        exact Or.inl (this ▸ htable1)
                      · exact Or.inr ⟨p, expandPath_ok_mono R queue queue1 hexp _ hp⟩
                  · simp only [List.mem_singleton] at hu
                    subst hu
                    rcases hadj with ⟨rel, hrel, hadjrel⟩
                    exact expandPath_ok_closure R queue queue1 hexp htable1 rel hrel v hadjrel
                have hy11 : y ∉ visited ++ [table] := by
                  intro hmem
                  rcases List.mem_append.mp hmem with h | h
                  · exact hy1 h
                  · simp only [List.mem_singleton] at h
                    exact hy2 _ (List.mem_cons_self _ _) h.symm
                have hy21 : ∀ e ∈ queue1, ¬ e.1 = y := by
                  intro e he
                  rcases expandPath_ok_members R queue queue1 hexp e he with
                    he1 | ⟨_, _, hne⟩
                  · exact hy2 e (List.mem_cons_of_mem _ he1)
                  · exact hne
                have hfuel1 : queue1.length +
                    ((allTables R x).filter
                      (fun t => decide (t ∉ visited ++ [table]))).length *
                      (R.length + 1) ≤ fuel := by
                  have hlen := expandPath_ok_length R queue queue1 hexp
                  have hlt := filter_visited_lt (l := allTables R x) (v := visited)
                    (a := table) (hq _ (List.mem_cons_self _ _)) hcur
                  have hsucc : ((allTables R x).filter
                        (fun t => decide (t ∉ visited ++ [table]))).length + 1 ≤
                      ((allTables R x).filter (fun t => decide (t ∉ visited))).length := hlt
                  have hmul := Nat.mul_le_mul_right (R.length + 1) hsucc
                  rw [Nat.succ_mul] at hmul
                  simp only [List.length_cons] at hfuel
                  linarith
                obtain ⟨V, hV1, hV2, hV3, hV4⟩ := ih (visited ++ [table]) queue1
                  hq1 hclosed1 hy11 hy21 hfuel1 hnone
                refine ⟨V, fun u hu => hV1 u (List.mem_append_left _ hu), ?_, hV3, hV4⟩
                intro e he
                rcases List.mem_cons.mp he with rfl | he
                · exact hV1 table htable1
                · exact hV2 e (expandPath_ok_mono R queue queue1 hexp e he)

/-- C2. For every table `x` and relationship list `R`, `findPath x x R`
returns the empty path; and for every pair `x`, `y`, `findPath x y R` is
`null` exactly when `y` is not among `findConnectedTables x R`. -/
theorem findPath_empty_and_none_iff_unreachable (x y : String) (R : List Relationship) :
    findPath x x R = some [] ∧
    (findPath x y R = none ↔ y ∉ findConnectedTables x R) := by
  constructor
  · unfold findPath
    rw [if_pos rfl]
  · by_cases hxy : x = y
    · subst hxy
      constructor
      · intro h
        unfold findPath at h
        rw [if_pos rfl] at h
        cases h
      · intro h
        exact absurd (mem_findConnectedTables_self x R) h
    · constructor
      · intro hnone hy
        have hreach : ReachableFrom R x y := mem_findConnectedTables_iff.mp hy
        unfold findPath at hnone
        rw [if_neg hxy] at hnone
        obtain ⟨V, _, hV2, hV3, hV4⟩ := bfsPath_none_closed (R := R) (x := x) (y := y)
          (pathFuel R x) [] [(x, [])]
          (by
            intro e he
            rcases List.mem_cons.mp he with rfl | he
            · exact List.mem_cons_self _ _
            · cases he)
          (by intro u hu; cases hu)
          (by intro h; cases h)
          (by
            intro e he
            rcases List.mem_cons.mp he with rfl | he
            · exact hxy
            · cases he)
          (by
            unfold pathFuel
            simp [List.filter_eq_self])
          hnone
        have hx : x ∈ V := hV2 (x, []) (List.mem_cons_self _ _)
        exact hV4 (reachable_mem_closed hx hV3 hreach)
      · intro hnotmem
        cases h : findPath x y R with
        | none => rfl
        | some p =>
            exfalso
            unfold findPath at h
            rw [if_neg hxy] at h
            have hreach : ReachableFrom R x y := bfsPath_sound (pathFuel R x) [] [(x, [])]
              (by
                intro e he
                rcases List.mem_cons.mp he with rfl | he
                · exact ReachableFrom.refl
                · cases he)
              p h
            exact hnotmem (mem_findConnectedTables_iff.mpr hreach)

/-! ## C8 and C4: query-builder round trips -/

/-- C8. With an empty selection list, `buildTableQuery` is exactly the
plain limited select over the rendered target table: the join-free,
where-free template `SELECT * FROM <rendered T> LIMIT n`. -/
theorem buildTableQuery_no_selections (targetTable : String)
    (relationships : List Relationship) (limit : Nat) :
    buildTableQuery targetTable [] relationships limit =
      "SELECT * FROM " ++ toSqlTableRef targetTable ++ " LIMIT " ++ toString limit := by
  rfl

/-- Dropping self-selections is idempotent. -/
theorem filterRelevantSelections_idem (targetTable targetColumn : String) :
    ∀ selections : List FieldSelection,
      filterRelevantSelections targetTable targetColumn
        (filterRelevantSelections targetTable targetColumn selections) =
      filterRelevantSelections targetTable targetColumn selections := by
  intro selections
  induction selections with
  | nil => rfl
  | cons s rest ih =>
      by_cases hs : s.table = targetTable ∧ s.column = targetColumn
      · have hcons : filterRelevantSelections targetTable targetColumn (s :: rest) =
            filterRelevantSelections targetTable targetColumn rest := by
          simp only [filterRelevantSelections, if_pos hs]
        rw [hcons, ih]
      · have hcons : filterRelevantSelections targetTable targetColumn (s :: rest) =
            s :: filterRelevantSelections targetTable targetColumn rest := by
          simp only [filterRelevantSelections, if_neg hs]
        rw [hcons]
        simp only [filterRelevantSelections, if_neg hs]
        rw [ih]

/-- C4. `buildPossibleValuesQuery` ignores every selection on the queried
field itself: the query only depends on the self-filtered selection list, and
when the lone selection is on the target field the result is the unfiltered
distinct-values query (no WHERE at all). -/
theorem buildPossibleValuesQuery_ignores_self_selection :
    (∀ (targetTable targetColumn : String) (selections : List FieldSelection)
        (relationships : List Relationship),
        buildPossibleValuesQuery targetTable targetColumn selections relationships =
          buildPossibleValuesQuery targetTable targetColumn
            (filterRelevantSelections targetTable targetColumn selections) relationships) ∧
    (∀ (targetTable targetColumn : String) (relationships : List Relationship)
        (sel : FieldSelection),
        sel.table = targetTable → sel.column = targetColumn →
        buildPossibleValuesQuery targetTable targetColumn [sel] relationships =
          "SELECT DISTINCT \"" ++ targetColumn ++ "\" FROM " ++ toSqlTableRef targetTable) := by
  constructor
  · intro targetTable targetColumn selections relationships
    simp only [buildPossibleValuesQuery]
    rw [filterRelevantSelections_idem]
  · intro targetTable targetColumn relationships sel h1 h2
    have hfil : filterRelevantSelections targetTable targetColumn [sel] = [] := by
      simp only [filterRelevantSelections,
        if_pos (show sel.table = targetTable ∧ sel.column = targetColumn from ⟨h1, h2⟩)]
    simp only [buildPossibleValuesQuery, hfil]
    rfl

/-- Witness for C4: the spec scenario — a lone selection on
`Orders.Status` leaves the possible-values query for that very field
unfiltered. -/
theorem buildPossibleValuesQuery_ignores_self_selection_witness :
    buildPossibleValuesQuery "Orders" "Status"
        [⟨"Orders", "Status", [DuckDBValue.str "Pending"]⟩] [] =
      "SELECT DISTINCT \"Status\" FROM loaded_db.\"Orders\"" := by
  have h := buildPossibleValuesQuery_ignores_self_selection.2 "Orders" "Status" []
    ⟨"Orders", "Status", [DuckDBValue.str "Pending"]⟩ rfl rfl
  rw [h]
  rfl

/-! ## C3 and C10: detector output invariants -/

theorem sameEndpoints_symm {a b : Relationship} (h : sameEndpoints a b = true) :
    sameEndpoints b a = true := by
  unfold sameEndpoints at h ⊢
  simp only [Bool.or_eq_true, Bool.and_eq_true, decide_eq_true_eq] at h ⊢
  rcases h with ⟨⟨⟨h1, h2⟩, h3⟩, h4⟩ | ⟨⟨⟨h1, h2⟩, h3⟩, h4⟩
  · exact Or.inl ⟨⟨⟨h1.symm, h2.symm⟩, h3.symm⟩, h4.symm⟩
  · exact Or.inr ⟨⟨⟨h3.symm, h4.symm⟩, h1.symm⟩, h2.symm⟩

/-- The duplicate scan keeps the no-duplicate-endpoints invariant. -/
theorem addIfNew_pairwise {l : List Relationship} {d : Relationship}
    (h : l.Pairwise (fun r1 r2 => ¬ sameEndpoints r1 r2 = true)) :
    (addIfNew l d).Pairwise (fun r1 r2 => ¬ sameEndpoints r1 r2 = true) := by
  unfold addIfNew
  by_cases hex : l.any (fun r => sameEndpoints r d) = true
  · rw [if_pos hex]
    exact h
  · rw [if_neg hex]
    rw [List.pairwise_append]
    refine ⟨h, List.pairwise_singleton _ _, ?_⟩
    intro a ha b hb
    simp only [List.mem_singleton] at hb
    subst hb
    intro hsame
    exact hex (List.any_eq_true.mpr ⟨a, ha, hsame⟩)

/-- Members of the accumulator after the duplicate scan. -/
theorem addIfNew_members {l : List Relationship} {d r : Relationship}
    (h : r ∈ addIfNew l d) : r ∈ l ∨ r = d := by
  unfold addIfNew at h
  split at h
  · exact Or.inl h
  · rcases List.mem_append.mp h with h | h
    · exact Or.inl h
    · simp only [List.mem_singleton] at h
      exact Or.inr h

/-- Pattern 1 only ever emits an edge towards a different table. -/
theorem pattern1Search_ne {tableName : String} {column : ColumnInfo}
    {potentialTableName : String} :
    ∀ (tm : List (String × TableSchema)) {r : Relationship},
      pattern1Search tableName column potentialTableName tm = some r →
      ¬ r.fromTable = r.toTable := by
  intro tm
  induction tm with
  | nil => intro r h; simp [pattern1Search] at h
  | cons e rest ih =>
      intro r h
      obtain ⟨tblNameLower, tbl⟩ := e
      simp only [pattern1Search] at h
      split at h
      · cases hid : findIdColumn tbl with
        | none => rw [hid] at h; exact ih h
        | some idColumn =>
            rw [hid] at h
            dsimp only at h
            by_cases hne : ¬ tbl.name = tableName
            · rw [if_pos hne] at h
              injection h with h2
              subst h2
              exact fun hc => hne hc.symm
            · rw [if_neg hne] at h
              exact ih h
      · exact ih h

/-- The inner scan of pattern 2 emits edges from the scanned table to the
id column's table. -/
theorem pattern2SearchCols_endpoints {tableName : String} {column : ColumnInfo}
    {otherTable : TableSchema} :
    ∀ (cols : List ColumnInfo) {r : Relationship},
      pattern2SearchCols tableName column otherTable cols = some r →
      r.fromTable = otherTable.name ∧ r.toTable = tableName := by
  intro cols
  induction cols with
  | nil => intro r h; simp [pattern2SearchCols] at h
  | cons c rest ih =>
      intro r h
      simp only [pattern2SearchCols] at h
      split at h
      · injection h with h2
        subst h2
        exact ⟨rfl, rfl⟩
      · exact ih h

/-- Pattern 2 only ever emits an edge towards a different table. -/
theorem pattern2Search_ne {tableName : String} {column : ColumnInfo} :
    ∀ (ts : List TableSchema) {r : Relationship},
      pattern2Search tableName column ts = some r →
      ¬ r.fromTable = r.toTable := by
  intro ts
  induction ts with
  | nil => intro r h; simp [pattern2Search] at h
  | cons t rest ih =>
      intro r h
      simp only [pattern2Search] at h
      by_cases heq : t.name = tableName
      · rw [if_pos heq] at h
        exact ih h
      · rw [if_neg heq] at h
        cases hcols : pattern2SearchCols tableName column t t.columns with
        | none => rw [hcols] at h; exact ih h
        | some r1 =>
            rw [hcols] at h
            injection h with h2
            subst h2
            obtain ⟨h1, h2⟩ := pattern2SearchCols_endpoints t.columns hcols
            rw [h1, h2]
            exact heq

/-- `detectColumnRelationship` never emits a self-loop. -/
theorem detectColumnRelationship_ne {tableName : String} {column : ColumnInfo}
    {tables : List TableSchema} {tableMap : List (String × TableSchema)}
    {r : Relationship}
    (h : detectColumnRelationship tableName column tables tableMap = some r) :
    ¬ r.fromTable = r.toTable := by
  unfold detectColumnRelationship at h
  dsimp only at h
  split at h
  · next r1 hp1 =>
      injection h with h2
      subst h2
      split at hp1
      · exact pattern1Search_ne tableMap hp1
      · cases hp1
  · split at h
    · exact pattern2Search_ne tables h
    · cases h

/-- C10. Every relationship emitted by `detectRelationships` connects two
distinct tables (no self-loop edge, in either naming pattern). -/
theorem detectRelationships_no_self_loop (tables : List TableSchema)
    (r : Relationship) (hmem : r ∈ detectRelationships tables) :
    ¬ r.fromTable = r.toTable := by
  unfold detectRelationships at hmem
  have hinner : ∀ (table : TableSchema) (cols : List ColumnInfo) (acc : List Relationship),
      (∀ a ∈ acc, ¬ a.fromTable = a.toTable) →
      ∀ a ∈ cols.foldl (fun relationships column =>
        match detectColumnRelationship table.name column tables (buildTableMap tables) with
        | some detected => addIfNew relationships detected
        | none => relationships) acc, ¬ a.fromTable = a.toTable := by
    intro table cols
    induction cols with
    | nil => intro acc hacc; exact hacc
    | cons c rest ih =>
        intro acc hacc
        rw [List.foldl_cons]
        cases hdet : detectColumnRelationship table.name c tables (buildTableMap tables) with
        | none => exact ih acc hacc
        | some d =>
            refine ih _ ?_
            intro a ha
            rcases addIfNew_members ha with ha | rfl
            · exact hacc a ha
            · exact detectColumnRelationship_ne hdet
  have houter : ∀ (ts : List TableSchema) (acc : List Relationship),
      (∀ a ∈ acc, ¬ a.fromTable = a.toTable) →
      ∀ a ∈ ts.foldl (fun relationships table =>
        table.columns.foldl (fun relationships column =>
          match detectColumnRelationship table.name column tables (buildTableMap tables) with
          | some detected => addIfNew relationships detected
          | none => relationships) relationships) acc, ¬ a.fromTable = a.toTable := by
    intro ts
    induction ts with
    | nil => intro acc hacc; exact hacc
    | cons t rest ih =>
        intro acc hacc
        rw [List.foldl_cons]
        exact ih _ (hinner t t.columns acc hacc)
  exact houter tables [] (by intro a ha; cases ha) r hmem

/-- Witness for C10: the detected `Orders.CustomerID → Customers.ID` edge
links two distinct tables. -/
theorem detectRelationships_no_self_loop_witness :
    (⟨"Orders.CustomerID->Customers.ID", "Orders", "CustomerID", "Customers", "ID",
        Confidence.high⟩ : Relationship) ∈
      detectRelationships
        [⟨"Orders", [⟨"ID", "INTEGER", false⟩, ⟨"CustomerID", "INTEGER", false⟩], 100⟩,
         ⟨"Customers", [⟨"ID", "INTEGER", false⟩, ⟨"Name", "VARCHAR", false⟩], 50⟩] ∧
    ¬ ("Orders" : String) = "Customers" :=
  ⟨by decide,
   detectRelationships_no_self_loop
     [⟨"Orders", [⟨"ID", "INTEGER", false⟩, ⟨"CustomerID", "INTEGER", false⟩], 100⟩,
      ⟨"Customers", [⟨"ID", "INTEGER", false⟩, ⟨"Name", "VARCHAR", false⟩], 50⟩]
     ⟨"Orders.CustomerID->Customers.ID", "Orders", "CustomerID", "Customers", "ID",
        Confidence.high⟩
     (by decide)⟩

/-- C3. No two relationships emitted by `detectRelationships` describe the
same unordered pair of (table, column) endpoints, directly or swapped: the
output list is pairwise free of `sameEndpoints` matches. -/
theorem detectRelationships_no_duplicate_endpoints (tables : List TableSchema) :
    (detectRelationships tables).Pairwise (fun r1 r2 => ¬ sameEndpoints r1 r2 = true) := by
  unfold detectRelationships
  have hinner : ∀ (table : TableSchema) (cols : List ColumnInfo) (acc : List Relationship),
      acc.Pairwise (fun r1 r2 => ¬ sameEndpoints r1 r2 = true) →
      (cols.foldl (fun relationships column =>
        match detectColumnRelationship table.name column tables (buildTableMap tables) with
        | some detected => addIfNew relationships detected
        | none => relationships) acc).Pairwise
          (fun r1 r2 => ¬ sameEndpoints r1 r2 = true) := by
    intro table cols
    induction cols with
    | nil => intro acc hacc; exact hacc
    | cons c rest ih =>
        intro acc hacc
        rw [List.foldl_cons]
        cases hdet : detectColumnRelationship table.name c tables (buildTableMap tables) with
        | none => exact ih acc hacc
        | some d => exact ih _ (addIfNew_pairwise hacc)
  have houter : ∀ (ts : List TableSchema) (acc : List Relationship),
      acc.Pairwise (fun r1 r2 => ¬ sameEndpoints r1 r2 = true) →
      (ts.foldl (fun relationships table =>
        table.columns.foldl (fun relationships column =>
          match detectColumnRelationship table.name column tables (buildTableMap tables) with
          | some detected => addIfNew relationships detected
          | none => relationships) relationships) acc).Pairwise
            (fun r1 r2 => ¬ sameEndpoints r1 r2 = true) := by
    intro ts
    induction ts with
    | nil => intro acc hacc; exact hacc
    | cons t rest ih =>
        intro acc hacc
        rw [List.foldl_cons]
        exact ih _ (hinner t t.columns acc hacc)
  exact houter tables [] List.Pairwise.nil


/-! ## JS Map lemmas -/

theorem jsMapGet_map_update_ne {κ ν : Type} [DecidableEq κ]
    {k name : κ} {v : ν} (h : ¬ name = k) :
    ∀ m : List (κ × ν),
      jsMapGet (m.map (fun p => if p.1 = k then (k, v) else p)) name = jsMapGet m name := by
  intro m
  induction m with
  | nil => rfl
  | cons p rest ih =>
      by_cases hp : p.1 = k
      · simp only [List.map_cons, if_pos hp]
        unfold jsMapGet at ih ⊢
        simp only [List.find?]
        rw [show (decide (k = name)) = false from decide_eq_false fun hc => h hc.symm,
          show (decide (p.1 = name)) = false from decide_eq_false fun hc => h (hp ▸ hc).symm]
        exact ih
      · simp only [List.map_cons, if_neg hp]
        unfold jsMapGet at ih ⊢
        simp only [List.find?]
        cases hpn : (decide (p.1 = name)) with
        | true => rfl
        | false => exact ih

theorem jsMapGet_map_update_self {κ ν : Type} [DecidableEq κ] {k : κ} {v : ν} :
    ∀ m : List (κ × ν), (∃ p ∈ m, p.1 = k) →
      jsMapGet (m.map (fun p => if p.1 = k then (k, v) else p)) k = some v := by
  intro m
  induction m with
  | nil => intro h; simp at h
  | cons p rest ih =>
      intro h
      by_cases hp : p.1 = k
      · simp only [List.map_cons, if_pos hp]
        unfold jsMapGet
        simp [List.find?]
      · simp only [List.map_cons, if_neg hp]
        unfold jsMapGet at ih ⊢
        simp only [List.find?]
        rw [show (decide (p.1 = k)) = false by simp [hp]]
        refine ih ?_
        rcases h with ⟨q, hq, hqk⟩
        rcases List.mem_cons.mp hq with rfl | hq
        · exact absurd hqk hp
        · exact ⟨q, hq, hqk⟩

theorem jsMapGet_append_single {κ ν : Type} [DecidableEq κ]
    {k name : κ} {v : ν} :
    ∀ m : List (κ × ν), (∀ p ∈ m, ¬ p.1 = k) →
      jsMapGet (m ++ [(k, v)]) name = if name = k then some v else jsMapGet m name := by
  intro m
  induction m with
  | nil =>
      intro _
      by_cases hn : name = k
      · subst hn; simp [jsMapGet, List.find?]
      · have hkn : (decide (k = name)) = false := decide_eq_false fun hc => hn hc.symm
        simp [jsMapGet, List.find?, hkn, hn]
  | cons p rest ih =>
      intro hall
      unfold jsMapGet at ih ⊢
      simp only [List.cons_append, List.find?]
      cases hpn : (decide (p.1 = name)) with
      | true =>
          by_cases hn : name = k
          · exact absurd (hn ▸ of_decide_eq_true hpn) (hall p (List.mem_cons_self _ _))
          · simp [hn]
      | false => exact ih (fun q hq => hall q (List.mem_cons_of_mem _ hq))

/-- The `Map.set`/`Map.get` round trip. -/
theorem jsMapGet_jsMapSet {κ ν : Type} [DecidableEq κ]
    (m : List (κ × ν)) (k : κ) (v : ν) (name : κ) :
    jsMapGet (jsMapSet m k v) name = if name = k then some v else jsMapGet m name := by
  unfold jsMapSet
  by_cases hany : m.any (fun p => decide (p.1 = k)) = true
  · rw [if_pos hany]
    by_cases hn : name = k
    · subst hn
      rw [if_pos rfl]
      refine jsMapGet_map_update_self m ?_
      simpa [List.any_eq_true] using hany
    · rw [if_neg hn]
      exact jsMapGet_map_update_ne hn m
  · rw [if_neg hany]
    refine jsMapGet_append_single m ?_
    intro p hp hpk
    exact hany (List.any_eq_true.mpr ⟨p, hp, by simp [hpk]⟩)

/-- `Map.has` agrees with `Map.get` definedness. -/
theorem jsMapHas_eq_isSome {κ ν : Type} [DecidableEq κ] :
    ∀ (m : List (κ × ν)) (k : κ), jsMapHas m k = (jsMapGet m k).isSome := by
  intro m k
  induction m with
  | nil => rfl
  | cons p rest ih =>
      unfold jsMapHas jsMapGet at ih ⊢
      simp only [List.any_cons, List.find?]
      cases hpk : (decide (p.1 = k)) with
      | true => simp
      | false => simpa using ih

/-! ## C9: selection statistics -/

/-- The per-table loop of `getSelectionStats` leaves other tables' record
entries untouched. -/
theorem statsFold_preserves (selections : List FieldSelection)
    (relationships : List Relationship) (executeQuery : QueryExecutor) (name : String) :
    ∀ (ts : List TableSchema) (m : List (String × Nat)),
      (∀ t ∈ ts, ¬ t.name = name) →
      recGet (ts.foldl (fun m table =>
        match executeQuery (buildTableQuery table.name selections relationships 10001) with
        | Except.ok result => recSet m table.name (min result.length 10000)
        | Except.error _ => recSet m table.name 0) m) name = recGet m name := by
  intro ts
  induction ts with
  | nil => intro m _; rfl
  | cons t rest ih =>
      intro m hall
      rw [List.foldl_cons]
      have hne : ¬ name = t.name := fun hc => hall t (List.mem_cons_self _ _) hc.symm
      cases hq : executeQuery (buildTableQuery t.name selections relationships 10001) with
      | ok result =>
          rw [ih _ (fun u hu => hall u (List.mem_cons_of_mem _ hu))]
          unfold recGet recSet
          rw [jsMapGet_jsMapSet, if_neg hne]
      | error e =>
          rw [ih _ (fun u hu => hall u (List.mem_cons_of_mem _ hu))]
          unfold recGet recSet
          rw [jsMapGet_jsMapSet, if_neg hne]

/-- A failing per-table query is caught and recorded as zero. -/
theorem statsFold_error (selections : List FieldSelection)
    (relationships : List Relationship) (executeQuery : QueryExecutor)
    (table : TableSchema) (e : String)
    (herr : executeQuery (buildTableQuery table.name selections relationships 10001) =
      Except.error e) :
    ∀ (ts : List TableSchema) (m : List (String × Nat)),
      table ∈ ts → (ts.map (fun t => t.name)).Nodup →
      recGet (ts.foldl (fun m table =>
        match executeQuery (buildTableQuery table.name selections relationships 10001) with
        | Except.ok result => recSet m table.name (min result.length 10000)
        | Except.error _ => recSet m table.name 0) m) table.name = some 0 := by
  intro ts
  induction ts with
  | nil => intro m hmem; cases hmem
  | cons t rest ih =>
      intro m hmem hnodup
      rw [List.foldl_cons]
      rw [List.map_cons, List.nodup_cons] at hnodup
      rcases List.mem_cons.mp hmem with rfl | hmem
      · have hrest : ∀ u ∈ rest, ¬ u.name = table.name := by
          intro u hu hc
          exact hnodup.1 (hc ▸ List.mem_map_of_mem (fun t => t.name) hu)
        rw [herr]
        rw [statsFold_preserves selections relationships executeQuery table.name rest _ hrest]
        unfold recGet recSet
        rw [jsMapGet_jsMapSet, if_pos rfl]
      · cases hq : executeQuery (buildTableQuery t.name selections relationships 10001) with
        | ok result => exact ih _ hmem hnodup.2
        | error e1 => exact ih _ hmem hnodup.2

/-- C9. With no selections, `getSelectionStats` reports zero affected tables,
zero selected values, and the full table count; and any table whose per-table
row-count query fails has its `possibleRecords` entry recorded as `0` rather
than aborting the pass. -/
theorem getSelectionStats_spec :
    (∀ (tables : List TableSchema) (relationships : List Relationship)
        (executeQuery : QueryExecutor),
        (getSelectionStats tables [] relationships executeQuery).affectedTables = 0 ∧
        (getSelectionStats tables [] relationships executeQuery).selectedValues = 0 ∧
        (getSelectionStats tables [] relationships executeQuery).totalTables = tables.length) ∧
    (∀ (tables : List TableSchema) (selections : List FieldSelection)
        (relationships : List Relationship) (executeQuery : QueryExecutor)
        (table : TableSchema) (e : String),
        table ∈ tables →
        (tables.map (fun t => t.name)).Nodup →
        executeQuery (buildTableQuery table.name selections relationships 10001) =
          Except.error e →
        recGet (getSelectionStats tables selections relationships executeQuery).possibleRecords
          table.name = some 0) := by
  constructor
  · intro tables relationships executeQuery
    exact ⟨rfl, rfl, rfl⟩
  · intro tables selections relationships executeQuery table e hmem hnodup herr
    unfold getSelectionStats
    exact statsFold_error selections relationships executeQuery table e herr tables [] hmem hnodup

/-- Witness for C9: zero selections over one table, and a failing per-table
query recorded as zero. -/
theorem getSelectionStats_spec_witness :
    ((getSelectionStats [⟨"T", [], 0⟩] [] [] (fun _ => Except.ok [])).affectedTables = 0 ∧
     (getSelectionStats [⟨"T", [], 0⟩] [] [] (fun _ => Except.ok [])).selectedValues = 0 ∧
     (getSelectionStats [⟨"T", [], 0⟩] [] [] (fun _ => Except.ok [])).totalTables = 1) ∧
    recGet (getSelectionStats [⟨"T", [⟨"c", "INTEGER", false⟩], 0⟩]
        [⟨"T", "c", [DuckDBValue.int 1]⟩] [] (fun _ => Except.error "boom")).possibleRecords
      "T" = some 0 :=
  ⟨getSelectionStats_spec.1 [⟨"T", [], 0⟩] [] (fun _ => Except.ok []),
   getSelectionStats_spec.2 [⟨"T", [⟨"c", "INTEGER", false⟩], 0⟩]
     [⟨"T", "c", [DuckDBValue.int 1]⟩] [] (fun _ => Except.error "boom")
     ⟨"T", [⟨"c", "INTEGER", false⟩], 0⟩ "boom"
     (List.mem_cons_self _ _) (by decide) rfl⟩

/-! ## C1: classification of a selected field -/

theorem vsGet_vsSet (m : ValueStates) (v : DuckDBValue) (s : SelectionState)
    (w : DuckDBValue) :
    vsGet (vsSet m v s) w = if w = v then some s else vsGet m w := by
  unfold vsGet vsSet
  exact jsMapGet_jsMapSet m v s w

theorem vsHas_eq_isSome (m : ValueStates) (v : DuckDBValue) :
    vsHas m v = (vsGet m v).isSome := by
  unfold vsHas vsGet
  exact jsMapHas_eq_isSome m v

/-- The selected-values loop marks exactly the selected values. -/
theorem markSelected_get :
    ∀ (values : List DuckDBValue) (acc : ValueStates) (w : DuckDBValue),
      vsGet (values.foldl (fun m value => vsSet m value SelectionState.selected) acc) w =
        if w ∈ values then some SelectionState.selected else vsGet acc w := by
  intro values
  induction values with
  | nil => intro acc w; simp
  | cons v rest ih =>
      intro acc w
      rw [List.foldl_cons, ih]
      by_cases hw : w ∈ rest
      · rw [if_pos hw, if_pos (List.mem_cons_of_mem _ hw)]
      · rw [if_neg hw, vsGet_vsSet]
        by_cases hv : w = v
        · rw [if_pos hv, if_pos (hv ▸ List.mem_cons_self v rest)]
        · rw [if_neg hv, if_neg (by
            intro hc
            rcases List.mem_cons.mp hc with hc | hc
            · exact hv hc
            · exact hw hc)]

/-- The alternatives loop never changes an existing classification. -/
theorem markAlternatives_preserve (columnName : String) :
    ∀ (rows : List Row) (m : ValueStates) (w : DuckDBValue) (s : SelectionState),
      vsGet m w = some s → vsGet (markAlternatives columnName rows m) w = some s := by
  intro rows
  induction rows with
  | nil => intro m w s h; exact h
  | cons r rest ih =>
      intro m w s h
      unfold markAlternatives at ih ⊢
      rw [List.foldl_cons]
      dsimp only
      by_cases hhas : vsHas m (rowGet r columnName) = true
      · rw [if_pos hhas]
        exact ih m w s h
      · rw [if_neg hhas]
        refine ih _ w s ?_
        rw [vsGet_vsSet]
        by_cases hw : w = rowGet r columnName
        · subst hw
          rw [vsHas_eq_isSome, h] at hhas
          simp at hhas
        · rw [if_neg hw]
          exact h

/-- The alternatives loop classifies every observed value that was still
unclassified as `alternative`. -/
theorem markAlternatives_new (columnName : String) :
    ∀ (rows : List Row) (m : ValueStates) (w : DuckDBValue),
      vsGet m w = none →
      vsGet (markAlternatives columnName rows m) w =
        if w ∈ rows.map (fun row => rowGet row columnName) then
          some SelectionState.alternative
        else none := by
  intro rows
  induction rows with
  | nil => intro m w h; simpa using h
  | cons r rest ih =>
      intro m w h
      unfold markAlternatives at ih ⊢
      rw [List.foldl_cons]
      dsimp only
      by_cases hhas : vsHas m (rowGet r columnName) = true
      · have hw : ¬ w = rowGet r columnName := by
          intro hc
          rw [vsHas_eq_isSome, ← hc, h] at hhas
          simp at hhas
        rw [if_pos hhas, ih m w h, List.map_cons]
        by_cases hmem : w ∈ rest.map (fun row => rowGet row columnName)
        · rw [if_pos hmem, if_pos (List.mem_cons_of_mem _ hmem)]
        · rw [if_neg hmem, if_neg (by
            intro hc
            rcases List.mem_cons.mp hc with hc | hc
            · exact hw hc
            · exact hmem hc)]
      · rw [if_neg hhas]
        by_cases hw : w = rowGet r columnName
        · subst hw
          have hset : vsGet (vsSet m (rowGet r columnName) SelectionState.alternative)
              (rowGet r columnName) = some SelectionState.alternative := by
            rw [vsGet_vsSet, if_pos rfl]
          have hfinal := markAlternatives_preserve columnName rest _ _
            SelectionState.alternative hset
          unfold markAlternatives at hfinal
          rw [hfinal, List.map_cons, if_pos (List.mem_cons_self _ _)]
        · have hm1 : vsGet (vsSet m (rowGet r columnName) SelectionState.alternative) w =
              none := by
            rw [vsGet_vsSet, if_neg hw]
            exact h
          rw [ih _ w hm1, List.map_cons]
          by_cases hmem : w ∈ rest.map (fun row => rowGet row columnName)
          · rw [if_pos hmem, if_pos (List.mem_cons_of_mem _ hmem)]
          · rw [if_neg hmem, if_neg (by
              intro hc
              rcases List.mem_cons.mp hc with hc | hc
              · exact hw hc
              · exact hmem hc)]

/-- The alternatives loop only ever writes the `alternative` state. -/
theorem markAlternatives_range (columnName : String) :
    ∀ (rows : List Row) (m : ValueStates) (w : DuckDBValue) (s : SelectionState),
      vsGet (markAlternatives columnName rows m) w = some s →
      vsGet m w = some s ∨ s = SelectionState.alternative := by
  intro rows
  induction rows with
  | nil => intro m w s h; exact Or.inl h
  | cons r rest ih =>
      intro m w s h
      unfold markAlternatives at ih h
      rw [List.foldl_cons] at h
      dsimp only at h
      by_cases hhas : vsHas m (rowGet r columnName) = true
      · rw [if_pos hhas] at h
        exact ih m w s h
      · rw [if_neg hhas] at h
        rcases ih _ w s h with h1 | h1
        · rw [vsGet_vsSet] at h1
          by_cases hw : w = rowGet r columnName
          · rw [if_pos hw] at h1
            cases h1
            exact Or.inr rfl
          · rw [if_neg hw] at h1
            exact Or.inl h1
        · exact Or.inr h1

/-- C1. For a field carrying a selection, `calculateFieldState` (when the
distinct-values query succeeds) marks every selected value `selected`, every
other observed value `alternative`, leaves no observed value unclassified,
and assigns no state besides those two. -/
theorem calculateFieldState_selected_classifies
    (tableName columnName : String) (selections : List FieldSelection)
    (relationships : List Relationship) (executeQuery : QueryExecutor)
    (fieldSelection : FieldSelection) (rows : List Row)
    (hsel : findSelection tableName columnName selections = some fieldSelection)
    (hexec : executeQuery (allValuesQuery tableName columnName) = Except.ok rows) :
    ∃ st : FieldState,
      calculateFieldState tableName columnName selections relationships executeQuery =
        Except.ok st ∧
      (∀ v ∈ fieldSelection.values, vsGet st.valueStates v = some SelectionState.selected) ∧
      (∀ row ∈ rows, rowGet row columnName ∉ fieldSelection.values →
          vsGet st.valueStates (rowGet row columnName) = some SelectionState.alternative) ∧
      (∀ row ∈ rows, (vsGet st.valueStates (rowGet row columnName)).isSome = true) ∧
      (∀ v s, vsGet st.valueStates v = some s →
          s = SelectionState.selected ∨ s = SelectionState.alternative) := by
  refine ⟨⟨tableName, columnName,
    markAlternatives columnName rows (markSelected fieldSelection.values)⟩, ?_, ?_, ?_, ?_, ?_⟩
  · unfold calculateFieldState
    rw [hsel]
    dsimp only
    rw [hexec]
  · intro v hv
    refine markAlternatives_preserve columnName rows _ v SelectionState.selected ?_
    unfold markSelected
    rw [markSelected_get, if_pos hv]
  · intro row hrow hnot
    have hnone : vsGet (markSelected fieldSelection.values) (rowGet row columnName) = none := by
      unfold markSelected
      rw [markSelected_get, if_neg hnot]
      rfl
    rw [markAlternatives_new columnName rows _ _ hnone,
      if_pos (List.mem_map_of_mem (fun row => rowGet row columnName) hrow)]
  · intro row hrow
    cases hv : vsGet (markSelected fieldSelection.values) (rowGet row columnName) with
    | some s =>
        rw [markAlternatives_preserve columnName rows _ _ s hv]
        rfl
    | none =>
        rw [markAlternatives_new columnName rows _ _ hv,
          if_pos (List.mem_map_of_mem (fun row => rowGet row columnName) hrow)]
        rfl
  · intro v s h
    rcases markAlternatives_range columnName rows _ v s h with h1 | h1
    · unfold markSelected at h1
      rw [markSelected_get] at h1
      by_cases hv : v ∈ fieldSelection.values
      · rw [if_pos hv] at h1
        cases h1
        exact Or.inl rfl
      · rw [if_neg hv] at h1
        cases h1
    · exact Or.inr h1

/-- Witness for C1: a selection of `Alice` on `Customers.Name` with observed
values `Alice` and `Bob`. -/
theorem calculateFieldState_selected_classifies_witness :
    ∃ st : FieldState,
      calculateFieldState "Customers" "Name"
          [⟨"Customers", "Name", [DuckDBValue.str "Alice"]⟩] []
          (fun _ => Except.ok [[("Name", DuckDBValue.str "Alice")],
            [("Name", DuckDBValue.str "Bob")]]) = Except.ok st ∧
      (∀ v ∈ [DuckDBValue.str "Alice"], vsGet st.valueStates v = some SelectionState.selected) ∧
      (∀ row ∈ [[("Name", DuckDBValue.str "Alice")], [("Name", DuckDBValue.str "Bob")]],
          rowGet row "Name" ∉ [DuckDBValue.str "Alice"] →
          vsGet st.valueStates (rowGet row "Name") = some SelectionState.alternative) ∧
      (∀ row ∈ [[("Name", DuckDBValue.str "Alice")], [("Name", DuckDBValue.str "Bob")]],
          (vsGet st.valueStates (rowGet row "Name")).isSome = true) ∧
      (∀ v s, vsGet st.valueStates v = some s →
          s = SelectionState.selected ∨ s = SelectionState.alternative) :=
  calculateFieldState_selected_classifies "Customers" "Name"
    [⟨"Customers", "Name", [DuckDBValue.str "Alice"]⟩] []
    (fun _ => Except.ok [[("Name", DuckDBValue.str "Alice")],
      [("Name", DuckDBValue.str "Bob")]])
    ⟨"Customers", "Name", [DuckDBValue.str "Alice"]⟩
    [[("Name", DuckDBValue.str "Alice")], [("Name", DuckDBValue.str "Bob")]]
    (by decide) rfl

/-! ## C5: failure handling in state calculation -/

theorem findSelection_some_mem {tableName columnName : String} :
    ∀ {selections : List FieldSelection} {s : FieldSelection},
      findSelection tableName columnName selections = some s →
      s ∈ selections ∧ s.table = tableName ∧ s.column = columnName := by
  intro selections
  induction selections with
  | nil => intro s h; simp [findSelection] at h
  | cons q rest ih =>
      intro s h
      rw [findSelection] at h
      split at h
      · next hq =>
          injection h with h2
          subst h2
          exact ⟨List.mem_cons_self _ _, hq⟩
      · obtain ⟨hmem, hrest⟩ := ih h
        exact ⟨List.mem_cons_of_mem _ hmem, hrest⟩

/-- A single field computation resolves whenever any selection it carries has
a succeeding distinct-values query (fields without a selection always
resolve: their failures are caught). -/
theorem calculateFieldState_ok (tableName columnName : String)
    (selections : List FieldSelection) (relationships : List Relationship)
    (executeQuery : QueryExecutor)
    (hok : ∀ s, findSelection tableName columnName selections = some s →
      ∃ rows, executeQuery (allValuesQuery tableName columnName) = Except.ok rows) :
    ∃ st, calculateFieldState tableName columnName selections relationships executeQuery =
      Except.ok st := by
  unfold calculateFieldState
  cases hsel : findSelection tableName columnName selections with
  | some s =>
      obtain ⟨rows, hrows⟩ := hok s hsel
      rw [hrows]
      exact ⟨_, rfl⟩
  | none =>
      dsimp only
      cases hp : executeQuery
          (buildPossibleValuesQuery tableName columnName selections relationships) with
      | error e => exact ⟨_, rfl⟩
      | ok possibleResult =>
          dsimp only
          cases ha : executeQuery (allValuesQuery tableName columnName) with
          | error e => exact ⟨_, rfl⟩
          | ok allValuesResult => exact ⟨_, rfl⟩

theorem mapM_calculateFieldState_ok (selections : List FieldSelection)
    (relationships : List Relationship) (executeQuery : QueryExecutor) :
    ∀ fields : List (String × String),
      (∀ f ∈ fields, ∃ st,
        calculateFieldState f.1 f.2 selections relationships executeQuery = Except.ok st) →
      ∃ states, fields.mapM
        (fun field => calculateFieldState field.1 field.2 selections relationships
          executeQuery) = Except.ok states := by
  intro fields
  induction fields with
  | nil => intro _; exact ⟨[], rfl⟩
  | cons f rest ih =>
      intro h
      obtain ⟨st, hst⟩ := h f (List.mem_cons_self _ _)
      obtain ⟨sts, hsts⟩ := ih (fun g hg => h g (List.mem_cons_of_mem _ hg))
      refine ⟨st :: sts, ?_⟩
      rw [List.mapM_cons, hst, hsts]
      rfl

/-- C5 (amended). Failure of the query-execution capability is caught only in
the possible-values branch (fields without a selection): there the field
resolves with an empty, unclassified value-state map — whether the
possible-values query or the follow-up distinct-values query fails — and
`calculateFieldStates` resolves as long as the distinct-values query of every
field that carries a selection succeeds. (A failure on a selected field's
query is not caught and rejects the whole `Promise.all`.) -/
theorem calculateFieldState_fail_open :
    (∀ (tableName columnName : String) (selections : List FieldSelection)
        (relationships : List Relationship) (executeQuery : QueryExecutor) (e : String),
        findSelection tableName columnName selections = none →
        executeQuery (buildPossibleValuesQuery tableName columnName selections
          relationships) = Except.error e →
        calculateFieldState tableName columnName selections relationships executeQuery =
          Except.ok ⟨tableName, columnName, []⟩) ∧
    (∀ (tableName columnName : String) (selections : List FieldSelection)
        (relationships : List Relationship) (executeQuery : QueryExecutor)
        (possibleResult : List Row) (e : String),
        findSelection tableName columnName selections = none →
        executeQuery (buildPossibleValuesQuery tableName columnName selections
          relationships) = Except.ok possibleResult →
        executeQuery (allValuesQuery tableName columnName) = Except.error e →
        calculateFieldState tableName columnName selections relationships executeQuery =
          Except.ok ⟨tableName, columnName, []⟩) ∧
    (∀ (tables : List TableSchema) (selections : List FieldSelection)
        (relationships : List Relationship) (executeQuery : QueryExecutor)
        (targetFields : Option (List ColumnSelection)),
        (∀ s ∈ selections, ∃ rows,
          executeQuery (allValuesQuery s.table s.column) = Except.ok rows) →
        ∃ states, calculateFieldStates tables selections relationships executeQuery
          targetFields = Except.ok states) := by
  refine ⟨?_, ?_, ?_⟩
  · intro tableName columnName selections relationships executeQuery e hnone herr
    unfold calculateFieldState
    rw [hnone]
    dsimp only
    rw [herr]
  · intro tableName columnName selections relationships executeQuery possibleResult e
      hnone hok herr
    unfold calculateFieldState
    rw [hnone]
    dsimp only
    rw [hok]
    dsimp only
    rw [herr]
  · intro tables selections relationships executeQuery targetFields hsel
    unfold calculateFieldStates
    by_cases hemp : selections.isEmpty = true
    · rw [if_pos hemp]
      exact ⟨[], rfl⟩
    · rw [if_neg hemp]
      refine mapM_calculateFieldState_ok selections relationships executeQuery _ ?_
      intro f _
      refine calculateFieldState_ok f.1 f.2 selections relationships executeQuery ?_
      intro s hs
      obtain ⟨hmem, ht, hc⟩ := findSelection_some_mem hs
      obtain ⟨rows, hrows⟩ := hsel s hmem
      exact ⟨rows, by rw [← ht, ← hc]; exact hrows⟩

/-- Witness for C5 (amended): a caught possible-values failure yields the
empty field state, and `calculateFieldStates` resolves when the selected
field's query succeeds. -/
theorem calculateFieldState_fail_open_witness :
    (calculateFieldState "T" "d" [⟨"T", "c", [DuckDBValue.int 1]⟩] []
        (fun q => if q = allValuesQuery "T" "c" then
          Except.ok [[("c", DuckDBValue.int 1)]] else Except.error "boom") =
      Except.ok ⟨"T", "d", []⟩) ∧
    (∃ states, calculateFieldStates
        [⟨"T", [⟨"c", "INTEGER", false⟩, ⟨"d", "INTEGER", false⟩], 0⟩]
        [⟨"T", "c", [DuckDBValue.int 1]⟩] []
        (fun q => if q = allValuesQuery "T" "c" then
          Except.ok [[("c", DuckDBValue.int 1)]] else Except.error "boom")
        none = Except.ok states) :=
  ⟨calculateFieldState_fail_open.1 "T" "d" [⟨"T", "c", [DuckDBValue.int 1]⟩] []
      (fun q => if q = allValuesQuery "T" "c" then
        Except.ok [[("c", DuckDBValue.int 1)]] else Except.error "boom") "boom"
      (by decide) rfl,
   calculateFieldState_fail_open.2.2
      [⟨"T", [⟨"c", "INTEGER", false⟩, ⟨"d", "INTEGER", false⟩], 0⟩]
      [⟨"T", "c", [DuckDBValue.int 1]⟩] []
      (fun q => if q = allValuesQuery "T" "c" then
        Except.ok [[("c", DuckDBValue.int 1)]] else Except.error "boom")
      none
      (by
        intro s hs
        rcases List.mem_cons.mp hs with rfl | hs
        · exact ⟨[[("c", DuckDBValue.int 1)]], rfl⟩
        · cases hs)⟩

/-- Counterexample for C5 as stated: with a selection on `T.c` and a failing
executor, the per-field computation rejects (it does not return an empty
value-state map), and `calculateFieldStates` rejects with it instead of
resolving with results for the other fields. -/
theorem calculateFieldStates_selected_failure_rejects :
    calculateFieldState "T" "c" [⟨"T", "c", [DuckDBValue.int 1]⟩] []
        (fun _ => Except.error "boom") = Except.error "boom" ∧
    calculateFieldStates
        [⟨"T", [⟨"c", "INTEGER", false⟩, ⟨"d", "INTEGER", false⟩], 0⟩,
         ⟨"U", [⟨"e", "INTEGER", false⟩], 0⟩]
        [⟨"T", "c", [DuckDBValue.int 1]⟩] [] (fun _ => Except.error "boom")
        none = Except.error "boom" := by
  constructor
  · rfl
  · rfl

/-! ## C6: table-reference rendering -/

theorem string_mk_data (s : String) : String.mk s.data = s := by
  cases s
  rfl

theorem splitOnDot_no_dot :
    ∀ (l acc : List Char), (∀ c ∈ l, ¬ c = '.') →
      splitOnDot l acc = [acc.reverse ++ l] := by
  intro l
  induction l with
  | nil => intro acc _; simp [splitOnDot]
  | cons c rest ih =>
      intro acc h
      rw [splitOnDot, if_neg (h c (List.mem_cons_self _ _))]
      rw [ih (c :: acc) (fun d hd => h d (List.mem_cons_of_mem _ hd))]
      simp

theorem splitOnDot_split :
    ∀ (s t acc : List Char), (∀ c ∈ s, ¬ c = '.') →
      splitOnDot (s ++ '.' :: t) acc = (acc.reverse ++ s) :: splitOnDot t [] := by
  intro s
  induction s with
  | nil => intro t acc _; simp [splitOnDot]
  | cons c rest ih =>
      intro t acc h
      rw [List.cons_append, splitOnDot, if_neg (h c (List.mem_cons_self _ _))]
      rw [ih t (c :: acc) (fun d hd => h d (List.mem_cons_of_mem _ hd))]
      simp


/-- Counterexample for C6 as stated: `getFieldValues` renders a
schema-qualified table name as a single quoted identifier rather than the
multi-part `loaded_db."schema"."table"` reference. -/
theorem getFieldValuesQuery_not_multipart :
    getFieldValuesQuery "staging.customers" "Name" =
      "SELECT DISTINCT \"Name\" FROM loaded_db.\"staging.customers\" ORDER BY \"Name\" LIMIT 10000" ∧
    ¬ getFieldValuesQuery "staging.customers" "Name" =
      "SELECT DISTINCT \"Name\" FROM " ++ toSqlTableRef "staging.customers" ++
        " ORDER BY \"Name\" LIMIT 10000" := by
  constructor
  · rfl
  · decide

/-! ## C7: LIMIT and DISTINCT structure of generated queries -/

theorem str_eq_of_data {a b : String} (h : a.data = b.data) : a = b := by
  cases a
  cases b
  cases h
  rfl

/-- A query built as `… ++ " LIMIT " ++ n` ends with a `LIMIT` clause. -/
theorem ends_with_limit_sp (a : String) (n : Nat) :
    ∃ p, a ++ " LIMIT " ++ toString n = p ++ "LIMIT " ++ toString n := by
  refine ⟨a ++ " ", ?_⟩
  rw [show (" LIMIT " : String) = " " ++ "LIMIT " from rfl]
  simp only [String.append_assoc]

/-- A query built as `… ++ "\nLIMIT " ++ n` ends with a `LIMIT` clause. -/
theorem ends_with_limit_nl (a : String) (n : Nat) :
    ∃ p, a ++ "\nLIMIT " ++ toString n = p ++ "LIMIT " ++ toString n := by
  refine ⟨a ++ "\n", ?_⟩
  rw [show ("\nLIMIT " : String) = "\n" ++ "LIMIT " from rfl]
  simp only [String.append_assoc]

/-- Reassociation of an eight-part concatenation behind its head. -/
theorem append_head_8 (h a b c d e f g : String) :
    h ++ a ++ b ++ c ++ d ++ e ++ f ++ g =
      h ++ (a ++ (b ++ (c ++ (d ++ (e ++ (f ++ g)))))) := by
  simp only [String.append_assoc]

/-- Reassociation of a ten-part concatenation behind its head. -/
theorem append_head_10 (h a b c d e f g k l : String) :
    h ++ a ++ b ++ c ++ d ++ e ++ f ++ g ++ k ++ l =
      h ++ (a ++ (b ++ (c ++ (d ++ (e ++ (f ++ (g ++ (k ++ l)))))))) := by
  simp only [String.append_assoc]

/-- Reassociation of a four-part concatenation behind a split of its head. -/
theorem append_split_head_4 (hd tl a b c d : String) (hsplit : a = hd ++ tl) :
    a ++ b ++ c ++ d = hd ++ (tl ++ (b ++ (c ++ d))) := by
  subst hsplit
  simp only [String.append_assoc]

/-- Reassociation of an eight-part concatenation behind a split of its head. -/
theorem append_split_head_8 (hd tl a b c d e f g h : String) (hsplit : a = hd ++ tl) :
    a ++ b ++ c ++ d ++ e ++ f ++ g ++ h =
      hd ++ (tl ++ (b ++ (c ++ (d ++ (e ++ (f ++ (g ++ h))))))) := by
  subst hsplit
  simp only [String.append_assoc]

/-- Every `buildTableQuery` result ends with its `LIMIT` clause. -/
theorem buildTableQuery_ends_with_limit
    (targetTable : String) (selections : List FieldSelection)
    (relationships : List Relationship) (limit : Nat) :
    ∃ p, buildTableQuery targetTable selections relationships limit =
      p ++ "LIMIT " ++ toString limit := by
  unfold buildTableQuery
  split
  · exact ends_with_limit_sp _ _
  · dsimp only
    split
    · exact ends_with_limit_sp _ _
    · exact ends_with_limit_nl _ _

/-- C7 (amended). `buildTableQuery` always ends with a `LIMIT` clause and is
either one of the two join-free `SELECT *` templates or a `SELECT DISTINCT`
join query; `buildPossibleValuesQuery` always selects `DISTINCT` but appends
no `LIMIT`; `buildCompositeTableQuery` emits the empty `SELECT 1 WHERE
FALSE` query, a single-table wrapper around a `LIMIT`-terminated base query,
or a `SELECT DISTINCT` join query ending with a `LIMIT` clause. -/
theorem generated_query_limit_distinct_structure :
    (∀ (targetTable : String) (selections : List FieldSelection)
        (relationships : List Relationship) (limit : Nat),
        ∃ p, buildTableQuery targetTable selections relationships limit =
          p ++ "LIMIT " ++ toString limit) ∧
    (∀ (targetTable : String) (selections : List FieldSelection)
        (relationships : List Relationship) (limit : Nat),
        buildTableQuery targetTable selections relationships limit =
            "SELECT * FROM " ++ toSqlTableRef targetTable ++ " LIMIT " ++ toString limit ∨
          (∃ wc, buildTableQuery targetTable selections relationships limit =
            "SELECT * FROM " ++ toSqlTableRef targetTable ++ " WHERE " ++ wc ++
              " LIMIT " ++ toString limit) ∨
          (∃ rest, buildTableQuery targetTable selections relationships limit =
            "SELECT DISTINCT t.* FROM " ++ rest)) ∧
    (∀ (targetTable targetColumn : String) (selections : List FieldSelection)
        (relationships : List Relationship),
        ∃ rest, buildPossibleValuesQuery targetTable targetColumn selections
          relationships = "SELECT DISTINCT " ++ rest) ∧
    (∀ (columnSelections : List ColumnSelection) (selections : List FieldSelection)
        (relationships : List Relationship) (limit : Nat),
        (buildCompositeTableQuery columnSelections selections relationships limit).query =
            "SELECT 1 WHERE FALSE" ∨
          (∃ sel base p,
            (buildCompositeTableQuery columnSelections selections relationships limit).query =
              "SELECT " ++ sel ++ " FROM (" ++ base ++ ") t" ∧
            base = p ++ "LIMIT " ++ toString limit) ∨
          ((∃ rest,
            (buildCompositeTableQuery columnSelections selections relationships limit).query =
              "SELECT DISTINCT " ++ rest) ∧
           (∃ p,
            (buildCompositeTableQuery columnSelections selections relationships limit).query =
              p ++ "LIMIT " ++ toString limit))) := by
  refine ⟨buildTableQuery_ends_with_limit, ?_, ?_, ?_⟩
  · intro targetTable selections relationships limit
    unfold buildTableQuery
    split
    · exact Or.inl rfl
    · dsimp only
      split
      · exact Or.inr (Or.inl ⟨_, rfl⟩)
      · exact Or.inr (Or.inr ⟨_, append_head_8 _ _ _ _ _ _ _ _⟩)
  · intro targetTable targetColumn selections relationships
    unfold buildPossibleValuesQuery
    dsimp only
    split
    · exact ⟨_, append_split_head_4 "SELECT DISTINCT " "\"" _ _ _ _ rfl⟩
    · exact ⟨_, append_split_head_8 "SELECT DISTINCT " "t.\"" _ _ _ _ _ _ _ _ rfl⟩
  · intro columnSelections selections relationships limit
    unfold buildCompositeTableQuery
    split
    · exact Or.inl rfl
    · dsimp only
      split
      · exact Or.inl rfl
      · rename_i primaryTable heq
        split
        · obtain ⟨p, hp⟩ := buildTableQuery_ends_with_limit
            primaryTable selections relationships limit
          exact Or.inr (Or.inl ⟨_, _, p, rfl, hp⟩)
        · split
          · exact Or.inl rfl
          · exact Or.inr (Or.inr ⟨⟨_, append_head_10 _ _ _ _ _ _ _ _ _ _⟩,
              ends_with_limit_nl _ _⟩)

/-- Counterexample for C7 as stated: neither the possible-values query nor
the empty composite query contains a `LIMIT` clause at all. -/
theorem buildPossibleValuesQuery_no_limit :
    buildPossibleValuesQuery "Orders" "Status" [] [] =
      "SELECT DISTINCT \"Status\" FROM loaded_db.\"Orders\"" ∧
    strIncludes (buildPossibleValuesQuery "Orders" "Status" [] []) "LIMIT" = false ∧
    (buildCompositeTableQuery [] [] [] 1000).query = "SELECT 1 WHERE FALSE" ∧
    strIncludes (buildCompositeTableQuery [] [] [] 1000).query "LIMIT" = false := by
  refine ⟨rfl, by decide, rfl, by decide⟩

/-! ## C6 support: every emitted join line renders its table via toSqlTableRef -/

/-- Reassociation of a fourteen-part concatenation behind its first six
parts (the shape of the join lines emitted by `walkPathStep`). -/
theorem append_head_14_after_6
    (p1 p2 p3 p4 p5 p6 p7 p8 p9 p10 p11 p12 p13 p14 : String) :
    p1 ++ p2 ++ p3 ++ p4 ++ p5 ++ p6 ++ p7 ++ p8 ++ p9 ++ p10 ++ p11 ++ p12 ++ p13 ++ p14 =
      p1 ++ p2 ++ p3 ++ p4 ++ p5 ++ p6 ++
        (p7 ++ (p8 ++ (p9 ++ (p10 ++ (p11 ++ (p12 ++ (p13 ++ p14))))))) := by
  simp only [String.append_assoc]

/-- One walk step only appends a join line whose table reference is
`toSqlTableRef` of an endpoint of the walked relationship. -/
theorem walkPathStep_joins (joinKw : String) (acc : JoinState × String)
    (rel : Relationship) :
    ∀ j ∈ ((walkPathStep joinKw acc rel).1).joins,
      j ∈ acc.1.joins ∨
      ∃ t a c, (t = rel.fromTable ∨ t = rel.toTable) ∧
        j = joinKw ++ " " ++ toSqlTableRef t ++ " " ++ a ++ " ON " ++ c := by
  obtain ⟨st, currentTable⟩ := acc
  intro j hj
  unfold walkPathStep at hj
  dsimp only at hj
  by_cases hdir : rel.fromTable = currentTable
  · simp only [if_pos hdir] at hj
    by_cases hmem : rel.toTable ∈ st.joinedTables
    · rw [if_pos hmem] at hj
      exact Or.inl hj
    · rw [if_neg hmem] at hj
      dsimp only at hj
      rcases List.mem_append.mp hj with hj | hj
      · exact Or.inl hj
      · simp only [List.mem_singleton] at hj
        subst hj
        exact Or.inr ⟨rel.toTable, _, _, Or.inr rfl,
          append_head_14_after_6 _ _ _ _ _ _ _ _ _ _ _ _ _ _⟩
  · simp only [if_neg hdir] at hj
    by_cases hmem : rel.fromTable ∈ st.joinedTables
    · rw [if_pos hmem] at hj
      exact Or.inl hj
    · rw [if_neg hmem] at hj
      dsimp only at hj
      rcases List.mem_append.mp hj with hj | hj
      · exact Or.inl hj
      · simp only [List.mem_singleton] at hj
        subst hj
        exact Or.inr ⟨rel.fromTable, _, _, Or.inl rfl,
          append_head_14_after_6 _ _ _ _ _ _ _ _ _ _ _ _ _ _⟩

/-- Walking a whole path only appends join lines whose table references are
`toSqlTableRef` of endpoints of path relationships. -/
theorem foldl_walkPathStep_joins (joinKw : String) :
    ∀ (path : List Relationship) (acc : JoinState × String),
      ∀ j ∈ ((path.foldl (walkPathStep joinKw) acc).1).joins,
        j ∈ acc.1.joins ∨
        ∃ rel ∈ path, ∃ t a c, (t = rel.fromTable ∨ t = rel.toTable) ∧
          j = joinKw ++ " " ++ toSqlTableRef t ++ " " ++ a ++ " ON " ++ c := by
  intro path
  induction path with
  | nil => intro acc j hj; exact Or.inl hj
  | cons rel rest ih =>
      intro acc j hj
      rw [List.foldl_cons] at hj
      rcases ih (walkPathStep joinKw acc rel) j hj with hj1 | ⟨r, hr, hshape⟩
      · rcases walkPathStep_joins joinKw acc rel j hj1 with hj2 | ⟨t, a, c, hep, hshape⟩
        · exact Or.inl hj2
        · exact Or.inr ⟨rel, List.mem_cons_self _ _, t, a, c, hep, hshape⟩
      · exact Or.inr ⟨r, List.mem_cons_of_mem _ hr, hshape⟩

/-- Stable insertion adds no new elements. -/
theorem mem_insertByPriority {le : Relationship → Relationship → Bool} {x : Relationship} :
    ∀ (l : List Relationship) {y : Relationship},
      y ∈ insertByPriority le x l → y = x ∨ y ∈ l := by
  intro l
  induction l with
  | nil =>
      intro y hy
      simp only [insertByPriority, List.mem_singleton] at hy
      exact Or.inl hy
  | cons z rest ih =>
      intro y hy
      simp only [insertByPriority] at hy
      split at hy
      · rcases List.mem_cons.mp hy with rfl | hy
        · exact Or.inl rfl
        · exact Or.inr hy
      · rcases List.mem_cons.mp hy with rfl | hy
        · exact Or.inr (List.mem_cons_self _ _)
        · rcases ih hy with h | h
          · exact Or.inl h
          · exact Or.inr (List.mem_cons_of_mem _ h)

/-- The stable sort permutes: its members come from the input list. -/
theorem mem_stableSortRels {le : Relationship → Relationship → Bool} :
    ∀ (l : List Relationship) {y : Relationship},
      y ∈ stableSortRels le l → y ∈ l := by
  intro l
  induction l with
  | nil => intro y hy; simp [stableSortRels] at hy
  | cons x rest ih =>
      intro y hy
      simp only [stableSortRels] at hy
      rcases mem_insertByPriority _ hy with rfl | hy
      · exact List.mem_cons_self _ _
      · exact List.mem_cons_of_mem _ (ih hy)

/-- A completed inner loop only queues extensions of the current path by one
of the scanned relationships. -/
theorem expandPath_ok_paths {toTable table : String} {visited : List String}
    {path : List Relationship} :
    ∀ (rels : List Relationship) (queue queue1 : List (String × List Relationship)),
      expandPath toTable table visited path rels queue = Except.ok queue1 →
      ∀ e ∈ queue1, e ∈ queue ∨ ∃ rel ∈ rels, e.2 = path ++ [rel] := by
  intro rels
  induction rels with
  | nil =>
      intro queue queue1 h e he
      simp only [expandPath] at h
      cases h
      exact Or.inl he
  | cons rel rest ih =>
      intro queue queue1 h e he
      simp only [expandPath] at h
      cases hnt : pathNextTable visited table rel with
      | none =>
          simp only [hnt] at h
          rcases ih _ _ h e he with h1 | ⟨r, hr, hp⟩
          · exact Or.inl h1
          · exact Or.inr ⟨r, List.mem_cons_of_mem _ hr, hp⟩
      | some nextTable =>
          simp only [hnt] at h
          by_cases hy : nextTable = toTable
          · rw [if_pos hy] at h; cases h
          · rw [if_neg hy] at h
            rcases ih _ _ h e he with h1 | ⟨r, hr, hp⟩
            · rcases List.mem_append.mp h1 with h2 | h2
              · exact Or.inl h2
              · simp only [List.mem_singleton] at h2
                subst h2
                exact Or.inr ⟨rel, List.mem_cons_self _ _, rfl⟩
            · exact Or.inr ⟨r, List.mem_cons_of_mem _ hr, hp⟩

/-- An early return from the inner loop extends the current path by one of
the scanned relationships. -/
theorem expandPath_error_path {toTable table : String} {visited : List String}
    {path : List Relationship} :
    ∀ (rels : List Relationship) (queue : List (String × List Relationship))
      (found : List Relationship),
      expandPath toTable table visited path rels queue = Except.error found →
      ∃ rel ∈ rels, found = path ++ [rel] := by
  intro rels
  induction rels with
  | nil =>
      intro queue found h
      simp only [expandPath] at h
      cases h
  | cons rel rest ih =>
      intro queue found h
      simp only [expandPath] at h
      cases hnt : pathNextTable visited table rel with
      | none =>
          simp only [hnt] at h
          obtain ⟨r, hr, hp⟩ := ih _ _ h
          exact ⟨r, List.mem_cons_of_mem _ hr, hp⟩
      | some nextTable =>
          simp only [hnt] at h
          by_cases hy : nextTable = toTable
          · rw [if_pos hy] at h
            cases h
            exact ⟨rel, List.mem_cons_self _ _, rfl⟩
          · rw [if_neg hy] at h
            obtain ⟨r, hr, hp⟩ := ih _ _ h
            exact ⟨r, List.mem_cons_of_mem _ hr, hp⟩

/-- Every relationship of a path returned by the search occurs in the
searched relationship list. -/
theorem bfsPath_some_paths {R : List Relationship} {y : String} :
    ∀ (fuel : Nat) (visited : List String) (queue : List (String × List Relationship)),
      (∀ e ∈ queue, ∀ rel ∈ e.2, rel ∈ R) →
      ∀ p, bfsPath R y fuel visited queue = some p → ∀ rel ∈ p, rel ∈ R := by
  intro fuel
  induction fuel with
  | zero => intro visited queue _ p h; simp [bfsPath] at h
  | succ fuel ih =>
      intro visited queue hq p h
      cases queue with
      | nil => simp [bfsPath] at h
      | cons e queue =>
          obtain ⟨table, path⟩ := e
          by_cases hcur : table ∈ visited
          · rw [bfsPath, if_pos hcur] at h
            exact ih visited queue (fun e he => hq e (List.mem_cons_of_mem _ he)) p h
          · rw [bfsPath, if_neg hcur] at h
            dsimp only at h
            cases hexp : expandPath y table (visited ++ [table]) path R queue with
            | error found =>
                rw [hexp] at h
                injection h with h2
                subst h2
                obtain ⟨rel0, hrel0, hfound⟩ := expandPath_error_path R queue found hexp
                subst hfound
                intro rel hrel
                rcases List.mem_append.mp hrel with hrel | hrel
                · exact hq (table, path) (List.mem_cons_self _ _) rel hrel
                · simp only [List.mem_singleton] at hrel
                  exact hrel ▸ hrel0
            | ok queue1 =>
                rw [hexp] at h
                refine ih _ queue1 ?_ p h
                intro e he
                rcases expandPath_ok_paths R queue queue1 hexp e he with he1 | ⟨rel0, hrel0, hp⟩
                · exact hq e (List.mem_cons_of_mem _ he1)
                · rw [hp]
                  intro rel hrel
                  rcases List.mem_append.mp hrel with hrel | hrel
                  · exact hq (table, path) (List.mem_cons_self _ _) rel hrel
                  · simp only [List.mem_singleton] at hrel
                    exact hrel ▸ hrel0

/-- `findPath` only returns relationships drawn from its input list. -/
theorem findPath_some_mem {fromTable toTable : String} {R p : List Relationship}
    (h : findPath fromTable toTable R = some p) : ∀ rel ∈ p, rel ∈ R := by
  unfold findPath at h
  split at h
  · injection h with h2
    subst h2
    intro rel hrel
    cases hrel
  · refine bfsPath_some_paths (pathFuel R fromTable) [] [(fromTable, [])] ?_ p h
    intro e he
    rcases List.mem_cons.mp he with rfl | he
    · intro rel hrel; cases hrel
    · cases he

/-- `findPreferredPath` only returns relationships drawn from its input. -/
theorem findPreferredPath_some_mem {fromTable toTable : String}
    {relationships : List Relationship} {preferredTables : List String}
    {p : List Relationship}
    (h : findPreferredPath fromTable toTable relationships preferredTables = some p) :
    ∀ rel ∈ p, rel ∈ relationships := by
  unfold findPreferredPath at h
  intro rel hrel
  exact mem_stableSortRels _ (findPath_some_mem h rel hrel)

/-- One selection-group iteration only appends well-rendered `JOIN` lines. -/
theorem addSelectionGroup_joins (targetTable : String)
    (relationships : List Relationship) (st : JoinState)
    (group : String × List FieldSelection) :
    ∀ j ∈ (addSelectionGroup targetTable relationships st group).joins,
      j ∈ st.joins ∨ joinLineOk "JOIN" relationships j := by
  intro j hj
  unfold addSelectionGroup at hj
  dsimp only at hj
  split at hj
  · exact Or.inl hj
  · cases hpath : findPreferredPath targetTable group.1 relationships st.joinedTables with
    | none =>
        rw [hpath] at hj
        exact Or.inl hj
    | some path =>
        rw [hpath] at hj
        dsimp only at hj
        split at hj
        · exact Or.inl hj
        · dsimp only at hj
          rcases foldl_walkPathStep_joins "JOIN" path (st, targetTable) j hj with
            hj1 | ⟨rel, hrel, t, a, c, hep, hshape⟩
          · exact Or.inl hj1
          · exact Or.inr ⟨t, a, c,
              ⟨rel, findPreferredPath_some_mem hpath rel hrel, hep⟩, hshape⟩

/-- The whole selection-group fold only appends well-rendered `JOIN` lines. -/
theorem foldl_addSelectionGroup_joins (targetTable : String)
    (relationships : List Relationship) :
    ∀ (groups : List (String × List FieldSelection)) (st : JoinState),
      ∀ j ∈ (groups.foldl (addSelectionGroup targetTable relationships) st).joins,
        j ∈ st.joins ∨ joinLineOk "JOIN" relationships j := by
  intro groups
  induction groups with
  | nil => intro st j hj; exact Or.inl hj
  | cons g rest ih =>
      intro st j hj
      rw [List.foldl_cons] at hj
      rcases ih _ j hj with hj1 | hok
      · exact addSelectionGroup_joins targetTable relationships st g j hj1
      · exact Or.inr hok

/-- One display-table iteration only appends well-rendered `LEFT JOIN`
lines. -/
theorem addDisplayTable_joins (primaryTable : String)
    (relationships : List Relationship) (acc : JoinState × List String)
    (table : String) :
    ∀ j ∈ ((addDisplayTable primaryTable relationships acc table).1).joins,
      j ∈ acc.1.joins ∨ joinLineOk "LEFT JOIN" relationships j := by
  intro j hj
  unfold addDisplayTable at hj
  split at hj
  · exact Or.inl hj
  · dsimp only at hj
    cases hpath : findPreferredPath primaryTable table relationships acc.1.joinedTables with
    | none =>
        rw [hpath] at hj
        exact Or.inl hj
    | some path =>
        rw [hpath] at hj
        dsimp only at hj
        split at hj
        · exact Or.inl hj
        · rcases foldl_walkPathStep_joins "LEFT JOIN" path (acc.1, primaryTable) j hj with
            hj1 | ⟨rel, hrel, t, a, c, hep, hshape⟩
          · exact Or.inl hj1
          · exact Or.inr ⟨t, a, c,
              ⟨rel, findPreferredPath_some_mem hpath rel hrel, hep⟩, hshape⟩

/-- The whole display-table fold only appends well-rendered `LEFT JOIN`
lines. -/
theorem foldl_addDisplayTable_joins (primaryTable : String)
    (relationships : List Relationship) :
    ∀ (tables : List String) (acc : JoinState × List String),
      ∀ j ∈ ((tables.foldl (addDisplayTable primaryTable relationships) acc).1).joins,
        j ∈ acc.1.joins ∨ joinLineOk "LEFT JOIN" relationships j := by
  intro tables
  induction tables with
  | nil => intro acc j hj; exact Or.inl hj
  | cons t rest ih =>
      intro acc j hj
      rw [List.foldl_cons] at hj
      rcases ih _ j hj with hj1 | hok
      · exact addDisplayTable_joins primaryTable relationships acc t j hj1
      · exact Or.inr hok

/-- One filter-group iteration only appends well-rendered `JOIN` lines. -/
theorem addFilterGroup_joins (primaryTable : String)
    (relationships : List Relationship) (st : JoinState)
    (group : String × List FieldSelection) :
    ∀ j ∈ (addFilterGroup primaryTable relationships st group).joins,
      j ∈ st.joins ∨ joinLineOk "JOIN" relationships j := by
  intro j hj
  unfold addFilterGroup at hj
  dsimp only at hj
  cases hal : aliasLookup st.tableAliases group.1 with
  | some sourceAlias =>
      rw [hal] at hj
      exact Or.inl hj
  | none =>
      rw [hal] at hj
      dsimp only at hj
      cases hpath : findPreferredPath primaryTable group.1 relationships st.joinedTables with
      | none =>
          rw [hpath] at hj
          exact Or.inl hj
      | some path =>
          rw [hpath] at hj
          dsimp only at hj
          split at hj
          · exact Or.inl hj
          · dsimp only at hj
            rcases foldl_walkPathStep_joins "JOIN" path (st, primaryTable) j hj with
              hj1 | ⟨rel, hrel, t, a, c, hep, hshape⟩
            · exact Or.inl hj1
            · exact Or.inr ⟨t, a, c,
                ⟨rel, findPreferredPath_some_mem hpath rel hrel, hep⟩, hshape⟩

/-- The whole filter-group fold only appends well-rendered `JOIN` lines. -/
theorem foldl_addFilterGroup_joins (primaryTable : String)
    (relationships : List Relationship) :
    ∀ (groups : List (String × List FieldSelection)) (st : JoinState),
      ∀ j ∈ (groups.foldl (addFilterGroup primaryTable relationships) st).joins,
        j ∈ st.joins ∨ joinLineOk "JOIN" relationships j := by
  intro groups
  induction groups with
  | nil => intro st j hj; exact Or.inl hj
  | cons g rest ih =>
      intro st j hj
      rw [List.foldl_cons] at hj
      rcases ih _ j hj with hj1 | hok
      · exact addFilterGroup_joins primaryTable relationships st g j hj1
      · exact Or.inr hok

/-- Branch characterization of `buildTableQuery`: in every branch the `FROM`
clause references the target table through `toSqlTableRef`, the `WHERE`
clause of the direct-filter branch is a `buildWhereClause` (whose table
references go through `toSqlTableRef`), and every join line references a
relationship-endpoint table through `toSqlTableRef`. -/
theorem buildTableQuery_table_refs (targetTable : String)
    (selections : List FieldSelection) (relationships : List Relationship)
    (limit : Nat) :
    buildTableQuery targetTable selections relationships limit =
      "SELECT * FROM " ++ toSqlTableRef targetTable ++ " LIMIT " ++ toString limit ∨
    (∃ g, buildTableQuery targetTable selections relationships limit =
      "SELECT * FROM " ++ toSqlTableRef targetTable ++ " WHERE " ++
        buildWhereClause g targetTable ++ " LIMIT " ++ toString limit) ∨
    (∃ joins whereClause,
      buildTableQuery targetTable selections relationships limit =
        "SELECT DISTINCT t.* FROM " ++ toSqlTableRef targetTable ++ " t\n" ++
          (if joins.isEmpty then "" else String.intercalate "\n" joins) ++ "\n" ++
          whereClause ++ "\nLIMIT " ++ toString limit ∧
      ∀ j ∈ joins, joinLineOk "JOIN" relationships j) := by
  unfold buildTableQuery
  dsimp only
  split
  · exact Or.inl rfl
  · split
    · exact Or.inr (Or.inl ⟨_, rfl⟩)
    · refine Or.inr (Or.inr ⟨_, _, rfl, ?_⟩)
      intro j hj
      rcases foldl_addSelectionGroup_joins targetTable relationships
          (groupSelectionsByTable selections)
          ⟨[(targetTable, "t")], 1, [], [], [targetTable]⟩ j hj with h0 | hok
      · exact absurd h0 (List.not_mem_nil j)
      · exact hok

/-- Branch characterization of `buildPossibleValuesQuery`: both branches
reference the target table through `toSqlTableRef`, and every join line
references a relationship-endpoint table through `toSqlTableRef`. -/
theorem buildPossibleValuesQuery_table_refs (targetTable targetColumn : String)
    (selections : List FieldSelection) (relationships : List Relationship) :
    buildPossibleValuesQuery targetTable targetColumn selections relationships =
      "SELECT DISTINCT \"" ++ targetColumn ++ "\" FROM " ++ toSqlTableRef targetTable ∨
    (∃ joins whereClause,
      buildPossibleValuesQuery targetTable targetColumn selections relationships =
        "SELECT DISTINCT t.\"" ++ targetColumn ++ "\" FROM " ++
          toSqlTableRef targetTable ++ " t\n" ++
          (if joins.isEmpty then "" else String.intercalate "\n" joins) ++ "\n" ++
          whereClause ∧
      ∀ j ∈ joins, joinLineOk "JOIN" relationships j) := by
  unfold buildPossibleValuesQuery
  dsimp only
  split
  · exact Or.inl rfl
  · refine Or.inr ⟨_, _, rfl, ?_⟩
    intro j hj
    rcases foldl_addSelectionGroup_joins targetTable relationships
        (groupSelectionsByTable
          (filterRelevantSelections targetTable targetColumn selections))
        ⟨[(targetTable, "t")], 1, [], [], [targetTable]⟩ j hj with h0 | hok
    · exact absurd h0 (List.not_mem_nil j)
    · exact hok

/-- Branch characterization of `buildCompositeTableQuery`: either the empty
query, a wrapper around `buildTableQuery` on the primary table, or a join
query whose `FROM` clause references the primary table through
`toSqlTableRef` and whose join lines each reference a relationship-endpoint
table through `toSqlTableRef`. -/
theorem buildCompositeTableQuery_table_refs (columnSelections : List ColumnSelection)
    (selections : List FieldSelection) (relationships : List Relationship)
    (limit : Nat) :
    (buildCompositeTableQuery columnSelections selections relationships limit).query =
      "SELECT 1 WHERE FALSE" ∨
    (∃ primaryTable selectClause,
      getPrimaryTable columnSelections = some primaryTable ∧
      (buildCompositeTableQuery columnSelections selections relationships limit).query =
        "SELECT " ++ selectClause ++ " FROM (" ++
          buildTableQuery primaryTable selections relationships limit ++ ") t") ∨
    (∃ primaryTable selectClause joins whereClause,
      getPrimaryTable columnSelections = some primaryTable ∧
      (buildCompositeTableQuery columnSelections selections relationships limit).query =
        "SELECT DISTINCT " ++ selectClause ++ "\nFROM " ++
          toSqlTableRef primaryTable ++ " t\n" ++
          (if joins.isEmpty then "" else String.intercalate "\n" joins) ++ "\n" ++
          whereClause ++ "\nLIMIT " ++ toString limit ∧
      ∀ j ∈ joins, joinLineOk "JOIN" relationships j ∨
        joinLineOk "LEFT JOIN" relationships j) := by
  unfold buildCompositeTableQuery
  dsimp only
  split
  · exact Or.inl rfl
  · split
    · exact Or.inl rfl
    · rename_i primaryTable heq
      split
      · exact Or.inr (Or.inl ⟨primaryTable, _, heq, rfl⟩)
      · split
        · exact Or.inl rfl
        · refine Or.inr (Or.inr ⟨primaryTable, _, _, _, heq, rfl, ?_⟩)
          intro j hj
          rcases foldl_addFilterGroup_joins primaryTable relationships
              (groupSelectionsByTable selections)
              ((getTablesFromSelections columnSelections).foldl
                (addDisplayTable primaryTable relationships)
                (⟨[(primaryTable, "t")], 1, [], [], [primaryTable]⟩, [])).1
              j hj with h1 | hok
          · rcases foldl_addDisplayTable_joins primaryTable relationships
                (getTablesFromSelections columnSelections)
                (⟨[(primaryTable, "t")], 1, [], [], [primaryTable]⟩, [])
                j h1 with h0 | hok2
            · exact absurd h0 (List.not_mem_nil j)
            · exact Or.inr hok2
          · exact Or.inl hok

/-- C6 (amended). `toSqlTableRef` renders a schema-qualified name
`schema.table` as `loaded_db."schema"."table"` and an unqualified name as
`loaded_db."table"`, and every table reference the query builders and the
`StateCalculator` distinct-values queries emit goes through it: the
unfiltered distinct-values query of `StateCalculator`, every `WHERE` table
reference of `buildWhereClause`, and — in every branch, for every input —
the `FROM` clause and every join line of `buildTableQuery`,
`buildPossibleValuesQuery` and `buildCompositeTableQuery`. Only
`getFieldValues` does not: it renders `loaded_db."<name>"` with the whole
(possibly qualified) name inside one quoted identifier. -/
theorem engine_table_reference_rendering :
    (∀ schema table : String,
        (∀ c ∈ schema.data, ¬ c = '.') → (∀ c ∈ table.data, ¬ c = '.') →
        toSqlTableRef (schema ++ "." ++ table) =
          "loaded_db.\"" ++ schema ++ "\".\"" ++ table ++ "\"") ∧
    (∀ name : String, (∀ c ∈ name.data, ¬ c = '.') →
        toSqlTableRef name = "loaded_db.\"" ++ name ++ "\"") ∧
    (∀ tableName columnName : String,
        allValuesQuery tableName columnName =
          "SELECT DISTINCT \"" ++ columnName ++ "\" FROM " ++ toSqlTableRef tableName) ∧
    (∀ (sels : List FieldSelection) (tableName : String),
        buildWhereClause sels tableName =
          String.intercalate " AND "
            (sels.map (fun sel =>
              toSqlTableRef tableName ++ ".\"" ++ sel.column ++ "\" IN (" ++
                String.intercalate ", " (sel.values.map formatValue) ++ ")"))) ∧
    (∀ (targetTable : String) (selections : List FieldSelection)
        (relationships : List Relationship) (limit : Nat),
        buildTableQuery targetTable selections relationships limit =
          "SELECT * FROM " ++ toSqlTableRef targetTable ++ " LIMIT " ++ toString limit ∨
        (∃ g, buildTableQuery targetTable selections relationships limit =
          "SELECT * FROM " ++ toSqlTableRef targetTable ++ " WHERE " ++
            buildWhereClause g targetTable ++ " LIMIT " ++ toString limit) ∨
        (∃ joins whereClause,
          buildTableQuery targetTable selections relationships limit =
            "SELECT DISTINCT t.* FROM " ++ toSqlTableRef targetTable ++ " t\n" ++
              (if joins.isEmpty then "" else String.intercalate "\n" joins) ++ "\n" ++
              whereClause ++ "\nLIMIT " ++ toString limit ∧
          ∀ j ∈ joins, joinLineOk "JOIN" relationships j)) ∧
    (∀ (targetTable targetColumn : String) (selections : List FieldSelection)
        (relationships : List Relationship),
        buildPossibleValuesQuery targetTable targetColumn selections relationships =
          "SELECT DISTINCT \"" ++ targetColumn ++ "\" FROM " ++ toSqlTableRef targetTable ∨
        (∃ joins whereClause,
          buildPossibleValuesQuery targetTable targetColumn selections relationships =
            "SELECT DISTINCT t.\"" ++ targetColumn ++ "\" FROM " ++
              toSqlTableRef targetTable ++ " t\n" ++
              (if joins.isEmpty then "" else String.intercalate "\n" joins) ++ "\n" ++
              whereClause ∧
          ∀ j ∈ joins, joinLineOk "JOIN" relationships j)) ∧
    (∀ (columnSelections : List ColumnSelection) (selections : List FieldSelection)
        (relationships : List Relationship) (limit : Nat),
        (buildCompositeTableQuery columnSelections selections relationships limit).query =
          "SELECT 1 WHERE FALSE" ∨
        (∃ primaryTable selectClause,
          getPrimaryTable columnSelections = some primaryTable ∧
          (buildCompositeTableQuery columnSelections selections relationships limit).query =
            "SELECT " ++ selectClause ++ " FROM (" ++
              buildTableQuery primaryTable selections relationships limit ++ ") t") ∨
        (∃ primaryTable selectClause joins whereClause,
          getPrimaryTable columnSelections = some primaryTable ∧
          (buildCompositeTableQuery columnSelections selections relationships limit).query =
            "SELECT DISTINCT " ++ selectClause ++ "\nFROM " ++
              toSqlTableRef primaryTable ++ " t\n" ++
              (if joins.isEmpty then "" else String.intercalate "\n" joins) ++ "\n" ++
              whereClause ++ "\nLIMIT " ++ toString limit ∧
          ∀ j ∈ joins, joinLineOk "JOIN" relationships j ∨
            joinLineOk "LEFT JOIN" relationships j)) ∧
    (∀ tableName columnName : String,
        getFieldValuesQuery tableName columnName =
          "SELECT DISTINCT \"" ++ columnName ++ "\" FROM loaded_db.\"" ++ tableName ++
            "\" ORDER BY \"" ++ columnName ++ "\" LIMIT 10000") := by
  refine ⟨?_, ?_, fun _ _ => rfl, fun _ _ => rfl,
    buildTableQuery_table_refs, buildPossibleValuesQuery_table_refs,
    buildCompositeTableQuery_table_refs, fun _ _ => rfl⟩
  · intro schema table hs ht
    have hdata : (schema ++ "." ++ table).data = schema.data ++ '.' :: table.data := by
      rw [String.data_append, String.data_append, List.append_assoc]
      rfl
    unfold toSqlTableRef
    rw [hdata, if_pos (by
      refine List.mem_append_right _ (List.mem_cons_self _ _))]
    rw [splitOnDot_split schema.data table.data [] hs]
    rw [splitOnDot_no_dot table.data [] ht]
    simp only [List.reverse_nil, List.nil_append, List.headD_cons, List.drop_succ_cons,
      List.drop_zero, string_mk_data]
  · intro name h
    unfold toSqlTableRef
    rw [if_neg (fun hc => h '.' hc rfl)]

/-- Witness for C6: the qualified rendering at `staging.customers`. -/
theorem engine_table_reference_rendering_witness :
    toSqlTableRef ("staging" ++ "." ++ "customers") =
      "loaded_db.\"" ++ "staging" ++ "\".\"" ++ "customers" ++ "\"" :=
  engine_table_reference_rendering.1 "staging" "customers" (by decide) (by decide)
